import Mathlib

/-!
Verification of the reference-resolution and flow-sensitive type-inference core
of the intelephense language analyzer (file `referenceReader.ts`).

The development shallowly embeds, in order:
  * the type-string utility contract (`typeString.ts`, external to the core);
  * the flow-sensitive variable environment `VariableTable`;
  * the symbol model and `Reference.findSymbols` / `findMembers` dispatch;
  * the syntax-tree traversal passes of the reference visitor
    (the flow pass and the name-reducer pass).

External collaborators that are not part of the analysed source (the symbol
database, the type aggregator, the tree traverser, position utilities) are
modelled from the specification; each such definition carries a doc comment
starting with "Modelled from the spec".
-/

set_option autoImplicit false

/-! ## Type strings (external contract) -/

namespace TypeString

/-- Splits a character list at every bar character.  Auxiliary for the
type-string contract; written over `List Char` so that the kernel can
evaluate it (a faithful executable stand-in for `String.splitOn "|"`). -/
def splitBar : List Char → List (List Char)
  | [] => [[]]
  | c :: rest =>
    let r := splitBar rest
    if c = '|' then [] :: r
    else
      match r with
      | [] => [[c]]
      | h :: t => (c :: h) :: t

/-- Modelled from the spec: `typeString.ts` is not part of the analysed
source.  Per the external-interface contract, this decomposes a union type
string into its atomic components, dropping empty pieces. -/
def atomicClassArray (s : String) : List String :=
  ((splitBar s.data).filter (fun l => l ≠ [])).map (fun l => String.mk l)

/-- Keeps the first occurrence of each element, preserving order. -/
def dedupFirst (l : List String) : List String :=
  l.foldl (fun acc x => if x ∈ acc then acc else acc ++ [x]) []

/-- Joins atomic components back into a union type string. -/
def joinBar : List String → String
  | [] => ""
  | [p] => p
  | p :: rest => p ++ "|" ++ joinBar rest

/-- Modelled from the spec: `typeString.ts` is not part of the analysed
source.  Per the design section, merging two type strings is a set union over
their atomic components with deduplication, in a deterministic order. -/
def merge (a b : String) : String :=
  joinBar (dedupFirst (atomicClassArray a ++ atomicClassArray b))

end TypeString

/-! ## The variable table -/

/-- A typed variable binding, `interface TypedVariable` of the source. -/
structure TypedVariable where
  name : String
  type : String
deriving DecidableEq, Repr

/-- `const enum TypedVariableSetKind` of the source. -/
inductive TypedVariableSetKind where
  | None
  | Scope
  | BranchGroup
  | Branch
deriving DecidableEq, Repr

/-- `interface TypedVariableSet` of the source.  The `variables` string-keyed
object is embedded as an insertion-ordered association list (JavaScript
objects preserve string-key insertion order, which the merge in
`pruneBranches` iterates in). -/
inductive TypedVariableSet where
  | mk (kind : TypedVariableSetKind) (vars : List TypedVariable)
      (branches : List TypedVariableSet)

def TypedVariableSet.kind : TypedVariableSet → TypedVariableSetKind
  | .mk k _ _ => k

/-- The `variables` map of the set (`variables` is a reserved word in Lean). -/
def TypedVariableSet.vars : TypedVariableSet → List TypedVariable
  | .mk _ v _ => v

def TypedVariableSet.branches : TypedVariableSet → List TypedVariableSet
  | .mk _ _ b => b

/-- First binding of `varName` in an association list
(`variables[varName]` of the source). -/
def lookupVar (vars : List TypedVariable) (varName : String) : Option TypedVariable :=
  vars.find? (fun v => v.name == varName)

/-- `variables[v.name] = v`: replace the existing entry in place (JavaScript
objects keep the key position) or append a fresh one. -/
def setVar (vars : List TypedVariable) (v : TypedVariable) : List TypedVariable :=
  if (lookupVar vars v.name).isSome then
    vars.map (fun w => if w.name = v.name then v else w)
  else
    vars ++ [v]

/-- `variables[n].type = t`: update the type of the existing entry. -/
def updateVarType (vars : List TypedVariable) (n t : String) : List TypedVariable :=
  vars.map (fun w => if w.name = n then { w with type := t } else w)

namespace VariableTable

/-- The `_typeVariableSetStack`; the head of the list is the top of the
stack.  In the source, `pushBranch` stores the pushed branch both on the
stack and in the `branches` list of the set below it, and all later writes go
through the shared object.  The value-semantics embedding instead records the
branch in the set below when it is popped; this is observationally
equivalent, because `branches` is only ever read by `pruneBranches` acting on
the top of the stack, at which point every branch recorded under the top has
already been popped and can no longer change. -/
abbrev Stack := List TypedVariableSet

/-- The constructor state: a single file-level `Scope` set. -/
def init : Stack :=
  [TypedVariableSet.mk .Scope [] []]

/-- `setType(varName, type)`.  The empty string stands for the absent /
falsy argument, matching the `!varName || !type` guard.  An empty stack is
returned unchanged (in the source `_top()` would be `undefined` there; the
state is unreachable through well-formed usage). -/
def setType (stack : Stack) (varName type : String) : Stack :=
  if varName = "" ∨ type = "" then stack
  else
    match stack with
    | [] => []
    | top :: rest =>
      TypedVariableSet.mk top.kind (setVar top.vars ⟨varName, type⟩) top.branches :: rest

/-- `setTypeMany(varNames, type)`. -/
def setTypeMany (stack : Stack) (varNames : List String) (type : String) : Stack :=
  varNames.foldl (fun st n => setType st n type) stack

/-- The walk of `getType` over the stack: return the type of the first set
binding the name, stopping (with the empty string) once a `Scope` set has
been inspected without a match. -/
def getTypeFrom (varName : String) : Stack → String
  | [] => ""
  | s :: rest =>
    match lookupVar s.vars varName with
    | some v => v.type
    | none => if s.kind = .Scope then "" else getTypeFrom varName rest

/-- `getType(varName, className?)`.  The empty `className` stands for the
absent / falsy argument. -/
def getType (stack : Stack) (varName className : String) : String :=
  if varName = "$this" ∧ className ≠ "" then className
  else getTypeFrom varName stack

/-- The initial variable map of the scope pushed by `pushScope(carry)`: each
carried name whose type currently resolves (to a truthy, i.e. non-empty,
string) is copied in by value. -/
def carriedVars (stack : Stack) (names : List String) : List TypedVariable :=
  names.foldl
    (fun vs n =>
      if getType stack n "" ≠ "" then setVar vs ⟨n, getType stack n ""⟩ else vs)
    []

/-- The scope set built by `pushScope(carry)` before it is pushed. -/
def carriedScope (stack : Stack) (carry : Option (List String)) : TypedVariableSet :=
  match carry with
  | none => TypedVariableSet.mk .Scope [] []
  | some names => TypedVariableSet.mk .Scope (carriedVars stack names) []

/-- `pushScope(carry?)`. -/
def pushScope (stack : Stack) (carry : Option (List String)) : Stack :=
  carriedScope stack carry :: stack

/-- `pushBranch()`.  The fresh branch is pushed onto the lookup stack; see
`Stack` for why recording it under the parent is deferred to pop time. -/
def pushBranch (stack : Stack) : Stack :=
  TypedVariableSet.mk .Branch [] [] :: stack

/-- The single pop operation shared by `popBranch()` and `popScope()` (both
are `stack.pop()` in the source).  A popped `Branch` becomes a recorded child
of the set below it, which in the source happened at push time through the
shared reference. -/
def popSet : Stack → Stack
  | [] => []
  | s :: rest =>
    if s.kind = .Branch then
      match rest with
      | [] => []
      | p :: rest2 =>
        TypedVariableSet.mk p.kind p.vars (p.branches ++ [s]) :: rest2
    else rest

/-- `popBranch()`. -/
def popBranch (stack : Stack) : Stack := popSet stack

/-- `popScope()`. -/
def popScope (stack : Stack) : Stack := popSet stack

/-- `_mergeSets(a, b)` restricted to the variable maps: for each binding of
`b` in insertion order, type-merge it into `a` or append it. -/
def mergeSetVars (avars bvars : List TypedVariable) : List TypedVariable :=
  bvars.foldl
    (fun acc tv =>
      match lookupVar acc tv.name with
      | some existing => updateVarType acc tv.name (TypeString.merge existing.type tv.type)
      | none => acc ++ [tv])
    avars

/-- `pruneBranches()`: merge every recorded child branch of the top set into
the top set in order, and clear the recorded-children list. -/
def pruneBranches : Stack → Stack
  | [] => []
  | top :: rest =>
    TypedVariableSet.mk top.kind
      (top.branches.foldl (fun vs b => mergeSetVars vs b.vars) top.vars)
      [] :: rest

end VariableTable

/-! ### Specification-side characterizations for the variable table -/

/-- Specification-side: the prefix of the stack that `getType` may inspect,
per the claim — every set down to and including the nearest `Scope` set. -/
def visibleSets : VariableTable.Stack → VariableTable.Stack
  | [] => []
  | s :: rest => if s.kind = .Scope then [s] else s :: visibleSets rest

/-- Specification-side: the type of the first set of the list binding the
name, or the empty string. -/
def firstBoundType (sets : VariableTable.Stack) (varName : String) : String :=
  match sets with
  | [] => ""
  | s :: rest =>
    match lookupVar s.vars varName with
    | some v => v.type
    | none => firstBoundType rest varName

/-- Specification-side: all types recorded for a name in a set — the set's
own binding (first, if present) followed by the bindings of its recorded
child branches in order. -/
def boundTypes (top : TypedVariableSet) (n : String) : List String :=
  ((lookupVar top.vars n).map TypedVariable.type).toList ++
    top.branches.filterMap (fun b => (lookupVar b.vars n).map TypedVariable.type)

/-- Specification-side: the binding predicted for a name after the
control-flow join — absent if no recorded set binds it, otherwise the
type-string union (left fold of the merge) of all its recorded types. -/
def prunedBinding (top : TypedVariableSet) (n : String) : Option TypedVariable :=
  match boundTypes top n with
  | [] => none
  | t :: ts => some ⟨n, ts.foldl TypeString.merge t⟩

/-- The names of an association list, used to state that a variable map has
no duplicate keys (automatic for JavaScript objects). -/
def varNames (vars : List TypedVariable) : List String :=
  vars.map TypedVariable.name

/-- Specification-side: folding the per-name occurrence types into the final
binding, mirroring how `_mergeSets` accumulates a single name across the
recorded branches. -/
def combinePruned (n : String) : Option TypedVariable → List String → Option TypedVariable
  | acc, [] => acc
  | some v, t :: ts => combinePruned n (some ⟨v.name, TypeString.merge v.type t⟩) ts
  | none, t :: ts => combinePruned n (some ⟨n, t⟩) ts

/-- A demonstration state: the control-flow join of
`if ($c) { $x = 1; } else { $x = "s"; }` inside a file scope that already
binds `$y`, with both branch sets recorded under the file scope. -/
def demoJoinTop : TypedVariableSet :=
  TypedVariableSet.mk .Scope [⟨"$y", "bool"⟩]
    [TypedVariableSet.mk .Branch [⟨"$x", "int"⟩] [],
     TypedVariableSet.mk .Branch [⟨"$x", "string"⟩] []]

/-- A demonstration stack binding `$this`, used to show that a supplied
class name bypasses the stack. -/
def demoThisStack : VariableTable.Stack :=
  [TypedVariableSet.mk .Scope [⟨"$this", "Bar"⟩] []]

/-! ## Positions, symbols and the symbol store -/

/-- An LSP position (line and character). -/
structure Position where
  line : Nat
  character : Nat
deriving DecidableEq, Repr

/-- An LSP range; `endPos` embeds the `end` field (a reserved word in
Lean). -/
structure Range where
  start : Position
  endPos : Position
deriving DecidableEq, Repr

/-- Modelled from the spec: `util.ts` is not part of the analysed source.
`isInRange` compares a position against a range: negative before the start,
positive after the end, zero inside. -/
def isInRange (p s e : Position) : Int :=
  if p.line < s.line ∨ (p.line = s.line ∧ p.character < s.character) then -1
  else if p.line > e.line ∨ (p.line = e.line ∧ p.character > e.character) then 1
  else 0

/- Modelled from the spec: `symbol.ts` is not part of the analysed source.
Symbol categories form a bit-flag enumeration (the dispatch masks kinds
together with bitwise tests); the concrete bit values are immaterial as long
as they are distinct powers of two. -/
namespace SymbolKind

def None : Nat := 0
def Class : Nat := 1
def Interface : Nat := 2
def Trait : Nat := 4
def Constant : Nat := 8
def Property : Nat := 16
def Method : Nat := 32
def Function : Nat := 64
def Parameter : Nat := 128
def Variable : Nat := 256
def ClassConstant : Nat := 512

end SymbolKind

/- Modelled from the spec: `symbol.ts` is not part of the analysed source.
Only the `Anonymous` modifier bit is consulted by this core. -/
namespace SymbolModifier

def Anonymous : Nat := 512

end SymbolModifier

/-- Modelled from the spec: `symbol.ts` is not part of the analysed source.
The fields consulted by this core: `kind`, `name`, `modifiers`, and the
optional source `location` (embedded as its range).  The `children` tree
structure of per-document declarations is carried by `SymTree` below, so
that declarations themselves stay comparable. -/
structure PhpSymbol where
  kind : Nat
  name : String
  modifiers : Nat
  location : Option Range
deriving DecidableEq, Repr

/-- ASCII-wise lower casing, an executable stand-in for
`String.prototype.toLowerCase` of the method-name comparison. -/
def lowerCase (s : String) : String :=
  String.mk (s.data.map Char.toLower)

mutual
/-- Modelled from the spec: the per-document declaration tree returned by
`getSymbolTable`.  A node carries its declaration and its child
declarations in document order. -/
inductive SymTree where
  | node (sym : PhpSymbol) (children : SymTreeList)
inductive SymTreeList where
  | nil
  | cons (head : SymTree) (tail : SymTreeList)
end

def SymTree.sym : SymTree → PhpSymbol
  | .node s _ => s

def SymTree.children : SymTree → SymTreeList
  | .node _ c => c

mutual
/-- Modelled from the spec: the per-document declaration tree is searched
for the innermost declaration satisfying the predicate (children are
preferred over the node itself). -/
def SymTree.findInnermost (p : PhpSymbol → Bool) : SymTree → Option SymTree
  | .node s cs =>
    match SymTreeList.findInnermostList p cs with
    | some r => some r
    | none => if p s then some (.node s cs) else none

def SymTreeList.findInnermostList (p : PhpSymbol → Bool) : SymTreeList → Option SymTree
  | .nil => none
  | .cons h t =>
    match SymTree.findInnermost p h with
    | some r => some r
    | none => SymTreeList.findInnermostList p t
end

/-- The first immediate child declaration satisfying the predicate
(`scope.children.find(fn)` of the source). -/
def SymTreeList.findChild (p : PhpSymbol → Bool) : SymTreeList → Option PhpSymbol
  | .nil => none
  | .cons h t => if p h.sym then some h.sym else SymTreeList.findChild p t

/-- Modelled from the spec: a per-document symbol table with its root
declaration tree. -/
structure SymbolTable where
  root : SymTree

/-- Modelled from the spec: `table.find(predicate)` searches the document
declaration tree; per the resolution contract the innermost matching
declaration wins. -/
def SymbolTable.find (t : SymbolTable) (p : PhpSymbol → Bool) : Option SymTree :=
  t.root.findInnermost p

/-- Modelled from the spec: `symbolStore.ts` and `typeAggregate.ts` are not
part of the analysed source.  `find` answers a name query filtered by a
predicate; `getSymbolTable` returns the per-document declaration tree;
`typeMembers` is the type-aggregation contract, returning the flattened own
+ inherited + used member list of a class-like type, or `none` when the
type is unknown (`TypeAggregate.create` returning `null`).
`TypeAggregate.members(predicate)` is `(typeMembers fqn).filter predicate`. -/
structure SymbolStore where
  find : String → (PhpSymbol → Bool) → List PhpSymbol
  getSymbolTable : String → Option SymbolTable
  typeMembers : String → Option (List PhpSymbol)

/-- The batch set-insertion the spec's member-resolution wording describes:
append the elements not already present, keeping first-insertion order.
The source set dedups by object identity; the embedding renders identity
of declarations as structural equality. -/
def addUnique (acc : List PhpSymbol) (xs : List PhpSymbol) : List PhpSymbol :=
  xs.foldl (fun a x => if x ∈ a then a else a ++ [x]) acc

/-- One `Set.prototype.add` call: insert the value if absent, keeping
first-insertion order.  The value space is `PhpSymbol | undefined`, with
`none` standing for `undefined`. -/
def addOne (acc : List (Option PhpSymbol)) (v : Option PhpSymbol) :
    List (Option PhpSymbol) :=
  if v ∈ acc then acc else acc ++ [v]

/-! ## References and symbol resolution -/

/-- `interface Reference` of the source.  The optional string fields
(`type`, `altName`, `scope`) are embedded as strings with the empty string
standing for the absent / falsy value, matching the truthiness tests of the
source. -/
structure Reference where
  kind : Nat
  name : String
  range : Range
  type : String := ""
  altName : String := ""
  scope : String := ""
deriving DecidableEq, Repr

namespace Reference

/-- `Reference.create(kind, name, range)`. -/
def create (kind : Nat) (name : String) (range : Range) : Reference :=
  { kind := kind, name := name, range := range }

/-- The class-like filter of the `findSymbols` class/interface/trait case. -/
def classLikeFn (x : PhpSymbol) : Bool :=
  (x.kind &&& (SymbolKind.Class ||| SymbolKind.Interface ||| SymbolKind.Trait)) != 0

/-- The exact-kind filter of the function/constant case. -/
def kindFn (k : Nat) (x : PhpSymbol) : Bool :=
  x.kind == k

/-- The method filter: kind match plus case-insensitive name match. -/
def methodFn (lcName : String) (x : PhpSymbol) : Bool :=
  x.kind == SymbolKind.Method && lowerCase x.name == lcName

/-- The property filter: declarations carry the `$` sigil, references do
not (`x.name.slice(1)`). -/
def propertyFn (name : String) (x : PhpSymbol) : Bool :=
  x.kind == SymbolKind.Property && x.name.drop 1 == name

/-- The class-constant filter: exact name match. -/
def classConstantFn (name : String) (x : PhpSymbol) : Bool :=
  x.kind == SymbolKind.ClassConstant && x.name == name

/-- The enclosing-scope filter of the variable case: an anonymous function
or a method whose location contains the reference's start position. -/
def varScopeFn (r : Reference) (x : PhpSymbol) : Bool :=
  ((x.kind == SymbolKind.Function && (x.modifiers &&& SymbolModifier.Anonymous) != 0) ||
      x.kind == SymbolKind.Method) &&
    (match x.location with
     | some loc => isInRange r.range.start loc.start loc.endPos == 0
     | none => false)

/-- The parameter-or-variable child filter of the variable case. -/
def paramVarFn (name : String) (x : PhpSymbol) : Bool :=
  (x.kind &&& (SymbolKind.Parameter ||| SymbolKind.Variable)) != 0 && x.name == name

/-- `findMembers(symbolStore, scope, predicate)`: split the scope type
string into atomic class names and, per atomic class with a known
aggregate, run `Set.prototype.add.apply(members, type.members(predicate))`.
`Function.prototype.apply` spreads the filtered member array into the
argument list of `Set.prototype.add`, and `add` consumes only its first
parameter: each class contributes at most its first filtered member, and
when the filtered array is empty the zero-argument `add()` inserts
`undefined` (embedded as `none`).  `Array.from` then returns the set's
insertion-ordered values. -/
def findMembers (symbolStore : SymbolStore) (scope : String)
    (predicate : PhpSymbol → Bool) : List (Option PhpSymbol) :=
  (TypeString.atomicClassArray scope).foldl
    (fun members fqn =>
      match symbolStore.typeMembers fqn with
      | some ms => addOne members (ms.filter predicate).head?
      | none => members)
    []

/-- `Reference.findSymbols(ref, symbolStore, uri)`.  The `!ref` null guard
of the source cannot arise in the embedding (references are values); the
final `symbols || []` default is the empty list of the unmatched cases.
The member cases return the value list of the set `findMembers` builds;
the `undefined` entry that list may hold has no `PhpSymbol` embedding, so
this embedding keeps its symbol entries — `findMembers` itself is the
faithful value list. -/
def findSymbols (ref : Reference) (symbolStore : SymbolStore) (uri : String) :
    List PhpSymbol :=
  if ref.kind = SymbolKind.Class ∨ ref.kind = SymbolKind.Interface ∨
      ref.kind = SymbolKind.Trait then
    symbolStore.find ref.name classLikeFn
  else if ref.kind = SymbolKind.Function ∨ ref.kind = SymbolKind.Constant then
    if (symbolStore.find ref.name (kindFn ref.kind)).length < 1 ∧ ref.altName ≠ "" then
      symbolStore.find ref.altName (kindFn ref.kind)
    else
      symbolStore.find ref.name (kindFn ref.kind)
  else if ref.kind = SymbolKind.Method then
    (findMembers symbolStore ref.scope (methodFn (lowerCase ref.name))).filterMap id
  else if ref.kind = SymbolKind.Property then
    (findMembers symbolStore ref.scope (propertyFn ref.name)).filterMap id
  else if ref.kind = SymbolKind.ClassConstant then
    (findMembers symbolStore ref.scope (classConstantFn ref.name)).filterMap id
  else if ref.kind = SymbolKind.Variable then
    match symbolStore.getSymbolTable uri with
    | none => []
    | some table =>
      match ((table.find (varScopeFn ref)).getD table.root).children.findChild
          (paramVarFn ref.name) with
      | some s => [s]
      | none => []
  else []

/-- The member filter selected by the reference kind, for stating the
member-resolution contract uniformly over the three member kinds. -/
def memberFilter (ref : Reference) (x : PhpSymbol) : Bool :=
  if ref.kind = SymbolKind.Method then methodFn (lowerCase ref.name) x
  else if ref.kind = SymbolKind.Property then propertyFn ref.name x
  else if ref.kind = SymbolKind.ClassConstant then classConstantFn ref.name x
  else false

/-- Specification-side (the claim's wording): the member union over all
atomic classes — every filtered member of every known class, deduplicated,
in first-insertion order. -/
def findMembersClaimed (symbolStore : SymbolStore) (scope : String)
    (predicate : PhpSymbol → Bool) : List PhpSymbol :=
  (TypeString.atomicClassArray scope).foldl
    (fun members fqn =>
      match symbolStore.typeMembers fqn with
      | some ms => addUnique members (ms.filter predicate)
      | none => members)
    []

/-- Specification-side (the claim's wording): the enclosing-scope filter
with plain named functions also admitted. -/
def claimedVarScopeFn (r : Reference) (x : PhpSymbol) : Bool :=
  (x.kind == SymbolKind.Function || x.kind == SymbolKind.Method) &&
    (match x.location with
     | some loc => isInRange r.range.start loc.start loc.endPos == 0
     | none => false)

/-- Specification-side (the claim's wording): resolve a variable reference
through the innermost enclosing function, method, or anonymous-function
declaration containing its start position, with the file-level root as
fallback. -/
def variableSymbolsClaimed (ref : Reference) (symbolStore : SymbolStore) (uri : String) :
    List PhpSymbol :=
  match symbolStore.getSymbolTable uri with
  | none => []
  | some table =>
    match ((table.find (claimedVarScopeFn ref)).getD table.root).children.findChild
        (paramVarFn ref.name) with
    | some s => [s]
    | none => []

/-- Specification-side (amended wording): as `variableSymbolsClaimed`, but
only methods and anonymous functions open a variable scope, exactly as the
source filter does. -/
def variableSymbolsSpec (ref : Reference) (symbolStore : SymbolStore) (uri : String) :
    List PhpSymbol :=
  match symbolStore.getSymbolTable uri with
  | none => []
  | some table =>
    match ((table.find (varScopeFn ref)).getD table.root).children.findChild
        (paramVarFn ref.name) with
    | some s => [s]
    | none => []

end Reference

/-! ## Demonstration data for the symbol-resolution claims -/

/-- A range literal helper for the demonstration data. -/
def demoRange (l1 c1 l2 c2 : Nat) : Range :=
  ⟨⟨l1, c1⟩, ⟨l2, c2⟩⟩

def demoMethodA : PhpSymbol :=
  ⟨SymbolKind.Method, "foo", 0, some (demoRange 1 0 1 10)⟩

def demoMethodB : PhpSymbol :=
  ⟨SymbolKind.Method, "foo", 0, some (demoRange 2 0 2 10)⟩

/-- A member declared once (in a shared base class) and flattened into the
member lists of both `A` and `B`. -/
def demoSharedMethod : PhpSymbol :=
  ⟨SymbolKind.Method, "foo", 0, some (demoRange 3 0 3 10)⟩

/-- A store whose aggregation contract knows classes `A` and `B`, both of
which expose `demoSharedMethod` among their flattened members. -/
def demoMemberStore : SymbolStore where
  find := fun _ _ => []
  getSymbolTable := fun _ => none
  typeMembers := fun fqn =>
    if fqn = "A" then some [demoMethodA, demoSharedMethod]
    else if fqn = "B" then some [demoMethodB, demoSharedMethod]
    else if fqn = "E" then some []
    else none

/-- A method reference with the union receiver type, spelled `Foo` to
exercise the case-insensitive method-name match. -/
def demoMethodRef : Reference :=
  { kind := SymbolKind.Method, name := "Foo", range := demoRange 5 0 5 4, scope := "A|B" }

def demoVarSym : PhpSymbol :=
  ⟨SymbolKind.Variable, "$x", 0, some (demoRange 2 4 2 6)⟩

/-- A plain named function (no `Anonymous` modifier) enclosing
`demoVarSym`. -/
def demoFnSym : PhpSymbol :=
  ⟨SymbolKind.Function, "f", 0, some (demoRange 1 0 3 1)⟩

def demoRootSym : PhpSymbol :=
  ⟨SymbolKind.None, "", 0, some (demoRange 0 0 9 0)⟩

/-- A document tree: the file root holding one named function which binds
`$x`. -/
def demoVarTable : SymbolTable :=
  ⟨SymTree.node demoRootSym
    (.cons (SymTree.node demoFnSym (.cons (SymTree.node demoVarSym .nil) .nil)) .nil)⟩

def demoVarStore : SymbolStore where
  find := fun _ _ => []
  getSymbolTable := fun u => if u = "doc" then some demoVarTable else none
  typeMembers := fun _ => none

/-- A variable reference sitting inside the named function's span. -/
def demoVarRef : Reference :=
  { kind := SymbolKind.Variable, name := "$x", range := demoRange 2 4 2 6 }

def demoMethVarSym : PhpSymbol :=
  ⟨SymbolKind.Variable, "$y", 0, some (demoRange 6 4 6 6)⟩

def demoMethSym : PhpSymbol :=
  ⟨SymbolKind.Method, "m", 0, some (demoRange 5 0 7 1)⟩

/-- A document tree where a method binds `$y`: the scope filter of the
source accepts it. -/
def demoMethTable : SymbolTable :=
  ⟨SymTree.node demoRootSym
    (.cons (SymTree.node demoMethSym (.cons (SymTree.node demoMethVarSym .nil) .nil)) .nil)⟩

def demoMethStore : SymbolStore where
  find := fun _ _ => []
  getSymbolTable := fun u => if u = "doc" then some demoMethTable else none
  typeMembers := fun _ => none

def demoMethVarRef : Reference :=
  { kind := SymbolKind.Variable, name := "$y", range := demoRange 6 4 6 6 }

def demoGlobalFn : PhpSymbol :=
  ⟨SymbolKind.Function, "strlen", 0, none⟩

/-- A store that only knows the global `strlen`: a lookup under the
namespace-qualified name finds nothing. -/
def demoFallbackStore : SymbolStore where
  find := fun n p => if n = "strlen" then [demoGlobalFn].filter p else []
  getSymbolTable := fun _ => none
  typeMembers := fun _ => none

def demoFallbackRef : Reference :=
  { kind := SymbolKind.Function, name := "App\\strlen", range := demoRange 0 0 0 6,
    altName := "strlen" }

/-! ## The syntax tree -/

/-- The phrase categories dispatched on by the reference visitor (all other
categories behave like `Unknown`). -/
inductive PhraseType where
  | FunctionDeclaration
  | MethodDeclaration
  | ClassDeclaration
  | TraitDeclaration
  | InterfaceDeclaration
  | AnonymousClassDeclaration
  | AnonymousFunctionCreationExpression
  | IfStatement
  | SwitchStatement
  | CaseStatement
  | DefaultStatement
  | ElseIfClause
  | ElseIfClauseList
  | ElseClause
  | SimpleAssignmentExpression
  | ByRefAssignmentExpression
  | InstanceOfExpression
  | InstanceofTypeDesignator
  | ForeachStatement
  | CatchClause
  | SimpleVariable
  | ListIntrinsic
  | QualifiedName
  | RelativeQualifiedName
  | FullyQualifiedName
  | NamespaceName
  | FunctionCallExpression
  | ConstantAccessExpression
  | StatementList
  | Unknown
deriving DecidableEq, Repr

/-- The token categories consulted by the visitor. -/
inductive TokenType where
  | VariableName
  | Name
  | Backslash
  | Whitespace
  | Comment
  | OtherTok
deriving DecidableEq, Repr

mutual
/-- Modelled from the spec: the parsed syntax tree (the parser is an
external collaborator).  A node carries its category, its byte span
(`offset`/`len`, used by the halt-offset check), its position range (used
for emitted references), and its children in document order; tokens carry
their text. -/
inductive PNode where
  | phrase (ptype : PhraseType) (offset len : Nat) (range : Range) (children : PNodeList)
  | token (ttype : TokenType) (offset len : Nat) (range : Range) (text : String)
inductive PNodeList where
  | nil
  | cons (head : PNode) (tail : PNodeList)
end

def PNode.range : PNode → Range
  | .phrase _ _ _ r _ => r
  | .token _ _ _ r _ => r

def PNode.offset : PNode → Nat
  | .phrase _ o _ _ _ => o
  | .token _ o _ _ _ => o

def PNode.len : PNode → Nat
  | .phrase _ _ l _ _ => l
  | .token _ _ l _ _ => l

def PNode.childrenL : PNode → PNodeList
  | .phrase _ _ _ _ cs => cs
  | .token _ _ _ _ _ => .nil

/-- `node.left` of a binary expression: its first child. -/
def PNode.firstChild : PNode → Option PNode
  | .phrase _ _ _ _ (.cons h _) => some h
  | _ => none

/-- Whether some immediate child is a phrase of the given category — the
embedding of the `elseClause` / `elseIfClauseList` fields of an
`IfStatement` node. -/
def PNodeList.hasType (t : PhraseType) : PNodeList → Bool
  | .nil => false
  | .cons (.phrase pt _ _ _ _) tl => pt == t || PNodeList.hasType t tl
  | .cons (.token _ _ _ _ _) tl => PNodeList.hasType t tl

def PNode.hasChildOfType (n : PNode) (t : PhraseType) : Bool :=
  n.childrenL.hasType t

mutual
/-- Modelled from the spec: `doc.nodeText(node)` of the external parsed
document — the concatenated token text of the subtree. -/
def PNode.nodeText : PNode → String
  | .phrase _ _ _ _ cs => PNodeList.textList cs
  | .token _ _ _ _ t => t

def PNodeList.textList : PNodeList → String
  | .nil => ""
  | .cons h tl => h.nodeText ++ PNodeList.textList tl
end

namespace ParsedDocument

/-- `ParsedDocument.isPhrase(node, types)` of the external parsed document:
the node exists, is a phrase, and its category is listed. -/
def isPhraseOf (n : Option PNode) (ts : List PhraseType) : Bool :=
  match n with
  | some (.phrase pt _ _ _ _) => ts.contains pt
  | _ => false

/-- Modelled from the spec: `ParsedDocument.isOffsetInNode(offset, node)` —
the byte offset falls inside the node's span. -/
def isOffsetInNode (o : Nat) (n : PNode) : Bool :=
  n.offset ≤ o && o < n.offset + n.len

end ParsedDocument

/-! ## The flow pass of the reference visitor -/

/-- The state threaded by the flow pass: the variable table, the emitted
references, and the `haltTraverse` flag. -/
structure FlowState where
  vt : VariableTable.Stack
  refs : List Reference
  halt : Bool

def initFlowState : FlowState :=
  ⟨VariableTable.init, [], false⟩

/-- Modelled from the spec: `_assignmentExpression` is referenced but not
defined in the analysed source.  Per the traversal contract it binds the
left-hand variable in the table and emits it as a variable reference; the
right-hand-side type evaluation is abstracted as the unknown (empty) type,
which `setType` ignores — the claims settled on this pass concern emission
order and halting only. -/
def emitSimpleVar : Option PNode → FlowState → FlowState
  | some l, st =>
    { st with
      refs := st.refs ++ [Reference.create SymbolKind.Variable l.nodeText l.range]
      vt := VariableTable.setType st.vt l.nodeText "" }
  | none, st => st

def assignmentExpression (n : PNode) (st : FlowState) : FlowState :=
  emitSimpleVar n.firstChild st

/-- Modelled from the spec: `_instanceOfExpression` is referenced but not
defined in the analysed source.  It special-cases the tested variable
identically to an assignment (narrowed type abstracted as unknown). -/
def emitNarrowedVar : Option PNode → FlowState → FlowState
  | some l, st =>
    if ParsedDocument.isPhraseOf (some l) [PhraseType.SimpleVariable] then
      { st with
        refs := st.refs ++ [Reference.create SymbolKind.Variable l.nodeText l.range]
        vt := VariableTable.setType st.vt l.nodeText "" }
    else st
  | none, st => st

def instanceOfExpression (n : PNode) (st : FlowState) : FlowState :=
  emitNarrowedVar n.firstChild st

/-- Whether the parent `IfStatement` carries an `elseif` clause list (the
spine access of the source; a missing parent behaves as no list — in the
source that access would fault). -/
def parentHasElseIfList : Option PNode → Bool
  | some p => p.hasChildOfType .ElseIfClauseList
  | none => false

/-- The pre-order dispatch of the flow pass.  Returns the new state,
whether to descend into children, and whether this node is one of the
assignment/`instanceof` special cases that check the halt offset after
reducing (the check itself is applied by the driver, `applyHalt`).
`_methodOrFunction`, `_anonymousFunctionCreationExpression`,
`_foreachStatement`, `_catchClause` and `_token` are referenced but not
defined in the analysed source and are modelled from the spec: the first
two push an isolated scope (parameter/use-clause binding abstracted), the
last three only bind types or feed reducers and emit nothing in this pass.
An `else` clause at the root (no parent) behaves as if the enclosing `if`
had no `elseif` list; in the source the spine access would fault there. -/
def flowPre : Option PNode → PNode → FlowState → FlowState × Bool × Bool
  | _, .token _ _ _ _ _, st => (st, false, false)
  | parent, n@(.phrase pt _ _ _ _), st =>
    if pt = .FunctionDeclaration ∨ pt = .MethodDeclaration then
      ({ st with vt := VariableTable.pushScope st.vt none }, true, false)
    else if pt = .ClassDeclaration ∨ pt = .TraitDeclaration ∨
        pt = .InterfaceDeclaration ∨ pt = .AnonymousClassDeclaration then
      ({ st with vt := VariableTable.pushScope st.vt none }, true, false)
    else if pt = .AnonymousFunctionCreationExpression then
      ({ st with vt := VariableTable.pushScope st.vt none }, true, false)
    else if pt = .IfStatement ∨ pt = .CaseStatement ∨ pt = .DefaultStatement ∨
        pt = .ElseIfClause then
      ({ st with vt := VariableTable.pushBranch st.vt }, true, false)
    else if pt = .ElseClause then
      if parentHasElseIfList parent then
        ({ st with vt := VariableTable.pushBranch st.vt }, true, false)
      else
        ({ st with vt := VariableTable.pushBranch (VariableTable.popBranch st.vt) }, true, false)
    else if pt = .ElseIfClauseList then
      ({ st with vt := VariableTable.popBranch st.vt }, true, false)
    else if pt = .SimpleAssignmentExpression ∨ pt = .ByRefAssignmentExpression then
      if ParsedDocument.isPhraseOf n.firstChild [.SimpleVariable, .ListIntrinsic] then
        (assignmentExpression n st, false, true)
      else (st, true, false)
    else if pt = .InstanceOfExpression then
      (instanceOfExpression n st, false, true)
    else if pt = .ForeachStatement then (st, true, false)
    else if pt = .CatchClause then (st, true, false)
    else (st, true, false)

/-- The halt-offset check of the assignment/`instanceof` special cases:
with a halt offset supplied (`haltAtOffset > -1`) and the offset inside the
just-reduced node, traversal termination is signalled. -/
def applyHalt (off : Option Nat) (n : PNode) (eligible : Bool) (st : FlowState) : FlowState :=
  match off with
  | some o =>
    if eligible && ParsedDocument.isOffsetInNode o n then { st with halt := true } else st
  | none => st

/-- The post-order dispatch of the flow pass. -/
def flowPost : PNode → FlowState → FlowState
  | .token _ _ _ _ _, st => st
  | n@(.phrase pt _ _ _ _), st =>
    if pt = .IfStatement then
      if ¬ n.hasChildOfType .ElseClause ∧ ¬ n.hasChildOfType .ElseIfClauseList then
        { st with vt := VariableTable.pruneBranches (VariableTable.popBranch st.vt) }
      else
        { st with vt := VariableTable.pruneBranches st.vt }
    else if pt = .SwitchStatement then
      { st with vt := VariableTable.pruneBranches st.vt }
    else if pt = .CaseStatement ∨ pt = .DefaultStatement ∨ pt = .ElseClause ∨
        pt = .ElseIfClause then
      { st with vt := VariableTable.popBranch st.vt }
    else if pt = .FunctionDeclaration ∨ pt = .MethodDeclaration ∨ pt = .ClassDeclaration ∨
        pt = .TraitDeclaration ∨ pt = .InterfaceDeclaration ∨
        pt = .AnonymousClassDeclaration ∨ pt = .AnonymousFunctionCreationExpression then
      { st with vt := VariableTable.popScope st.vt }
    else st

mutual
/-- The flow pass driven over the tree.  Modelled from the spec: the
external tree traverser visits each node pre-order, descends when allowed,
then visits post-order, and stops visiting everything once `haltTraverse`
is set ("traversal stops as soon as the node containing the offset has been
fully reduced"). -/
def flowVisit (off : Option Nat) (parent : Option PNode) : PNode → FlowState → FlowState
  | n@(.phrase _ _ _ _ cs), st =>
    if st.halt then st
    else
      let pre := flowPre parent n st
      let st1 := applyHalt off n pre.2.2 pre.1
      let st2 := if pre.2.1 then flowVisitList off (some n) cs st1 else st1
      if st2.halt then st2 else flowPost n st2
  | n@(.token _ _ _ _ _), st =>
    if st.halt then st
    else
      let pre := flowPre parent n st
      let st1 := applyHalt off n pre.2.2 pre.1
      if st1.halt then st1 else flowPost n st1

def flowVisitList (off : Option Nat) (parent : Option PNode) :
    PNodeList → FlowState → FlowState
  | .nil, st => st
  | .cons h tl, st => flowVisitList off parent tl (flowVisit off parent h st)
end

/-! ## The name-reducer pass of the reference visitor -/

/-- Modelled from the spec: the external name resolver contract —
fully-qualify a bare name under the current namespace/alias context (with a
kind hint), and resolve a namespace-relative name. -/
structure NameResolver where
  resolveNotFullyQualified : String → Nat → String
  resolveRelative : String → String

/-- The three name reducers pushed by this pass
(`FullyQualifiedNameTransform`, `RelativeQualifiedNameTransform`,
`QualifiedNameTransform` of the source). -/
inductive Transform where
  | fqnT (value : Reference)
  | rqnT (value : Reference)
  | qnT (value : Reference)

def Transform.value : Transform → Reference
  | .fqnT v => v
  | .rqnT v => v
  | .qnT v => v

/-- The `push` of the three name reducers for the `NamespaceName` child
value (the only child value any of them reacts to): the fully qualified
form takes the text as is, the relative form resolves it relative to the
current namespace, and the plain qualified form resolves it under alias
rules, recording the source text as `altName` for functions and constants
whenever resolution substituted a different name. -/
def Transform.pushName (resolver : NameResolver) (text : String) : Transform → Transform
  | .fqnT v => .fqnT { v with name := text }
  | .rqnT v => .rqnT { v with name := resolver.resolveRelative text }
  | .qnT v =>
    if (v.kind = SymbolKind.Function ∨ v.kind = SymbolKind.Constant) ∧
        text ≠ resolver.resolveNotFullyQualified text v.kind then
      .qnT { v with name := resolver.resolveNotFullyQualified text v.kind, altName := text }
    else
      .qnT { v with name := resolver.resolveNotFullyQualified text v.kind }

/-- Modelled from the spec: `ParseTreeHelper.phraseToReferencesSymbolKind`
is not part of the analysed source — the symbol-kind hint taken from the
parent node category (call parents hint functions, constant access hints
constants, other contexts default to class names). -/
def phraseToReferencesSymbolKind (parent : Option PNode) : Nat :=
  match parent with
  | some (.phrase .FunctionCallExpression _ _ _ _) => SymbolKind.Function
  | some (.phrase .ConstantAccessExpression _ _ _ _) => SymbolKind.Constant
  | _ => SymbolKind.Class

/-- The state threaded by the name pass: the reducer stack (`null`
placeholders included) and the emitted references. -/
structure NameState where
  tstack : List (Option Transform)
  refs : List Reference

def initNameState : NameState :=
  ⟨[], []⟩

/-- Push a reducer onto the stack. -/
def NameState.pushT (st : NameState) (t : Transform) : NameState :=
  { st with tstack := some t :: st.tstack }

/-- Push the `null` placeholder onto the stack. -/
def NameState.pushNull (st : NameState) : NameState :=
  { st with tstack := none :: st.tstack }

/-- The pre-order dispatch of the name pass: name forms push their reducer,
`NamespaceName` pushes a placeholder and keeps its children unvisited,
tokens push nothing, everything else pushes a placeholder. -/
def namePre (parent : Option PNode) (n : PNode) (st : NameState) : NameState × Bool :=
  match n with
  | .token _ _ _ _ _ => (st, false)
  | .phrase pt _ _ range _ =>
    if pt = .FullyQualifiedName then
      (st.pushT (Transform.fqnT (Reference.create (phraseToReferencesSymbolKind parent) "" range)), true)
    else if pt = .RelativeQualifiedName then
      (st.pushT (Transform.rqnT (Reference.create (phraseToReferencesSymbolKind parent) "" range)), true)
    else if pt = .QualifiedName then
      (st.pushT (Transform.qnT (Reference.create (phraseToReferencesSymbolKind parent) "" range)), true)
    else if pt = .NamespaceName then
      (st.pushNull, false)
    else
      (st.pushNull, true)

/-- The post-order dispatch of the name pass, with the operations that
would throw in the source returned as errors: popping an empty reducer
stack, and calling `.value()` on a `null` reducer popped at a name node.
A completed name node always yields its (truthy) reference value, which is
appended to the output; the parent reducer is offered the value but the
name reducers ignore non-`NamespaceName` children, so the remaining stack
is unchanged.  A `NamespaceName` node feeds its text to the parent
reducer when one exists. -/
def namePost (resolver : NameResolver) (n : PNode) (st : NameState) :
    Except String NameState :=
  match n with
  | .token _ _ _ _ _ => Except.ok st
  | .phrase pt _ _ _ _ =>
    match st.tstack with
    | [] => Except.error "transformer stack underflow"
    | transformer :: rest =>
      if pt = .QualifiedName ∨ pt = .RelativeQualifiedName ∨ pt = .FullyQualifiedName then
        match transformer with
        | none => Except.error "null transformer reduced as a name node"
        | some tr =>
          Except.ok { tstack := rest, refs := st.refs ++ [tr.value] }
      else if pt = .NamespaceName then
        match rest with
        | [] => Except.ok { st with tstack := rest }
        | p :: rest2 =>
          Except.ok { st with
            tstack := (p.map (Transform.pushName resolver n.nodeText)) :: rest2 }
      else
        Except.ok { st with tstack := rest }

mutual
/-- The name pass driven over the tree: pre-order, children when allowed,
post-order; reducer errors propagate. -/
def nameVisit (resolver : NameResolver) (parent : Option PNode) :
    PNode → NameState → Except String NameState
  | n@(.phrase _ _ _ _ cs), st =>
    let pre := namePre parent n st
    match (if pre.2 then nameVisitList resolver (some n) cs pre.1 else Except.ok pre.1) with
    | Except.error e => Except.error e
    | Except.ok st2 => namePost resolver n st2
  | n@(.token _ _ _ _ _), st =>
    let pre := namePre parent n st
    namePost resolver n pre.1

def nameVisitList (resolver : NameResolver) (parent : Option PNode) :
    PNodeList → NameState → Except String NameState
  | .nil, st => Except.ok st
  | .cons h tl, st =>
    match nameVisit resolver parent h st with
    | Except.error e => Except.error e
    | Except.ok st2 => nameVisitList resolver parent tl st2
end

/-- The produced container: the document URI and the reference sequence in
traversal order (`DocumentReferences` of the source, its binary-search
index left to the consumer contract). -/
structure DocumentReferences where
  uri : String
  references : List Reference

/-! ## Positional well-formedness of parse trees -/

/-- Position order, as a decidable Boolean. -/
def posLE (a b : Position) : Bool :=
  decide (a.line < b.line ∨ (a.line = b.line ∧ a.character ≤ b.character))

mutual
/-- A positionally well-formed tree: every range runs forwards, children
lie inside their parent's range in document order, and consecutive
siblings do not overlap (a property of parser output). -/
def wfNode : PNode → Bool
  | .phrase _ _ _ r cs => posLE r.start r.endPos && wfList r.start r.endPos cs
  | .token _ _ _ r _ => posLE r.start r.endPos

def wfList (lo hi : Position) : PNodeList → Bool
  | .nil => true
  | .cons h tl =>
    posLE lo h.range.start && posLE h.range.endPos hi && wfNode h &&
      wfList h.range.endPos hi tl
end

/-- The name-node categories whose completion emits a reference. -/
def isEmitType (pt : PhraseType) : Bool :=
  decide (pt = .QualifiedName ∨ pt = .RelativeQualifiedName ∨ pt = .FullyQualifiedName)

mutual
/-- No reference-emitting node anywhere in the subtree. -/
def emitFree : PNode → Bool
  | .phrase pt _ _ _ cs => !isEmitType pt && emitFreeList cs
  | .token _ _ _ _ _ => true

def emitFreeList : PNodeList → Bool
  | .nil => true
  | .cons h tl => emitFree h && emitFreeList tl
end

mutual
/-- Reference-emitting nodes are not nested inside one another (in a
grammar-conformant tree a qualified-name form only contains its namespace
name and separator tokens). -/
def nestOK : PNode → Bool
  | .phrase pt _ _ _ cs => if isEmitType pt then emitFreeList cs else nestOKList cs
  | .token _ _ _ _ _ => true

def nestOKList : PNodeList → Bool
  | .nil => true
  | .cons h tl => nestOK h && nestOKList tl
end

/-- A demonstration assignment `$x = 1` sitting at the root of a document:
the reference it emits is the last one of the whole traversal. -/
def demoAssignNode : PNode :=
  .phrase .SimpleAssignmentExpression 0 8 (demoRange 0 0 0 8)
    (.cons (.phrase .SimpleVariable 0 2 (demoRange 0 0 0 2)
        (.cons (.token .VariableName 0 2 (demoRange 0 0 0 2) "$x") .nil))
      (.cons (.token .OtherTok 5 1 (demoRange 0 5 0 6) "1") .nil))

/-- Two sibling assignments: a halt offset inside the first makes the
halted run skip the second, so the emitted prefix is strict. -/
def demoTwoAssigns : PNode :=
  .phrase .Unknown 0 20 (demoRange 0 0 0 20)
    (.cons demoAssignNode
      (.cons (.phrase .SimpleAssignmentExpression 10 8 (demoRange 0 10 0 18)
        (.cons (.phrase .SimpleVariable 10 2 (demoRange 0 10 0 12)
            (.cons (.token .VariableName 10 2 (demoRange 0 10 0 12) "$y") .nil))
          (.cons (.token .OtherTok 15 1 (demoRange 0 15 0 16) "1") .nil))) .nil))

/-- The shape of the reducer stack: which slots hold a reducer, and the
(construction-time, never mutated) range of each reducer's value.  The
traversal preserves it across a subtree visit. -/
def stackShape (ts : List (Option Transform)) : List (Option Range) :=
  ts.map (Option.map (fun t => (Transform.value t).range))

/-- All references of the list lie inside `[lo, hi]` and run forwards. -/
def refsBounded (lo hi : Position) (rs : List Reference) : Prop :=
  ∀ ref ∈ rs, posLE lo ref.range.start = true ∧ posLE ref.range.endPos hi = true ∧
    posLE ref.range.start ref.range.endPos = true

/-- The references are pairwise ordered and non-overlapping: each one ends
no later than every later one starts. -/
def refsOrdered (rs : List Reference) : Prop :=
  List.Pairwise (fun a b => posLE a.range.endPos b.range.start = true) rs

/-- A resolver for demonstrations: a qualified name gains the prefix
`NS\\` from the current namespace, a fully qualified name is kept as
written. -/
def demoNameResolver : NameResolver := ⟨fun s _ => "NS\\" ++ s, fun s => s⟩

/-- A qualified-name node spelling `Foo` over characters 0-3 of line 0. -/
def demoQNNode : PNode :=
  .phrase .QualifiedName 0 3 (demoRange 0 0 0 3)
    (.cons (.phrase .NamespaceName 0 3 (demoRange 0 0 0 3)
      (.cons (.token .Name 0 3 (demoRange 0 0 0 3) "Foo") .nil)) .nil)

/-- A two-name demonstration document: the qualified name `Foo` followed
by the fully qualified name `\Bar`. -/
def demoNameTree : PNode :=
  .phrase .Unknown 0 10 (demoRange 0 0 0 10)
    (.cons demoQNNode
      (.cons (.phrase .FullyQualifiedName 0 5 (demoRange 0 5 0 9)
        (.cons (.phrase .NamespaceName 0 5 (demoRange 0 5 0 9)
          (.cons (.token .Name 0 5 (demoRange 0 5 0 9) "Bar") .nil)) .nil)) .nil))

/-- The reference sequence the demonstration document produces. -/
def demoNameRefs : List Reference :=
  [{ kind := SymbolKind.Class, name := "NS\\Foo", range := demoRange 0 0 0 3 },
   { kind := SymbolKind.Class, name := "Bar", range := demoRange 0 5 0 9 }]

/-! ## Helper lemmas: association-list maps -/

lemma lookupVar_keeps_name {vars : List TypedVariable} {n : String} {v : TypedVariable}
    (h : lookupVar vars n = some v) : v.name = n := by
  have := List.find?_some h
  simpa using this

lemma lookupVar_cons (w : TypedVariable) (vars : List TypedVariable) (n : String) :
    lookupVar (w :: vars) n = if w.name = n then some w else lookupVar vars n := by
  by_cases h : w.name = n
  · have hb : (w.name == n) = true := beq_iff_eq.mpr h
    simp [lookupVar, List.find?, hb, h]
  · have hb : (w.name == n) = false := beq_eq_false_iff_ne.mpr h
    simp [lookupVar, List.find?, hb, h]

lemma lookupVar_of_not_mem {vars : List TypedVariable} {n : String}
    (h : n ∉ varNames vars) : lookupVar vars n = none := by
  induction vars with
  | nil => rfl
  | cons w rest ih =>
    simp only [varNames, List.map_cons, List.mem_cons, not_or] at h
    rw [lookupVar_cons, if_neg (fun e => h.1 e.symm)]
    exact ih (by simpa [varNames] using h.2)

lemma lookupVar_append_one (vars : List TypedVariable) (tv : TypedVariable) (n : String) :
    lookupVar (vars ++ [tv]) n =
      match lookupVar vars n with
      | some v => some v
      | none => if tv.name = n then some tv else none := by
  induction vars with
  | nil => simp [lookupVar_cons, lookupVar]
  | cons w rest ih =>
    rw [List.cons_append, lookupVar_cons, lookupVar_cons]
    by_cases h : w.name = n <;> simp [h, ih]

lemma updateVarType_cons (w : TypedVariable) (rest : List TypedVariable) (k t : String) :
    updateVarType (w :: rest) k t =
      (if w.name = k then (⟨w.name, t⟩ : TypedVariable) else w) :: updateVarType rest k t := by
  by_cases hw : w.name = k <;> simp [updateVarType, hw]

lemma lookupVar_updateVarType (vars : List TypedVariable) (k t n : String) :
    lookupVar (updateVarType vars k t) n =
      if n = k then (lookupVar vars k).map (fun v => (⟨v.name, t⟩ : TypedVariable))
      else lookupVar vars n := by
  induction vars with
  | nil => by_cases h : n = k <;> simp [updateVarType, lookupVar, h]
  | cons w rest ih =>
    by_cases hw : w.name = k <;> by_cases hn : n = k
    · subst hn
      simp [updateVarType_cons, lookupVar_cons, hw, ih]
    · have hwn : ¬ w.name = n := fun e => hn (e.symm.trans hw)
      have hkn : ¬ k = n := fun e => hn e.symm
      simp [updateVarType_cons, lookupVar_cons, hw, hn, hwn, hkn, ih]
    · subst hn
      simp [updateVarType_cons, lookupVar_cons, hw, ih]
    · by_cases hwn : w.name = n
      · simp [updateVarType_cons, lookupVar_cons, hw, hn, hwn]
      · simp [updateVarType_cons, lookupVar_cons, hw, hn, hwn, ih]

lemma map_subst_cons (w : TypedVariable) (rest : List TypedVariable) (v : TypedVariable) :
    (w :: rest).map (fun u => if u.name = v.name then v else u) =
      (if w.name = v.name then v else w) :: rest.map (fun u => if u.name = v.name then v else u) := by
  by_cases hw : w.name = v.name <;> simp [hw]

lemma lookupVar_map_subst (vars : List TypedVariable) (v : TypedVariable) (n : String) :
    lookupVar (vars.map (fun u => if u.name = v.name then v else u)) n =
      if n = v.name then (lookupVar vars v.name).map (fun _ => v) else lookupVar vars n := by
  induction vars with
  | nil => by_cases h : n = v.name <;> simp [lookupVar, h]
  | cons w rest ih =>
    by_cases hw : w.name = v.name <;> by_cases hn : n = v.name
    · subst hn
      simp [map_subst_cons, lookupVar_cons, hw, ih]
    · have hwn : ¬ w.name = n := fun e => hn (e.symm.trans hw)
      have hvn : ¬ v.name = n := fun e => hn e.symm
      simp [map_subst_cons, lookupVar_cons, hw, hn, hwn, hvn, ih]
    · subst hn
      simp [map_subst_cons, lookupVar_cons, hw, ih]
    · by_cases hwn : w.name = n
      · simp [map_subst_cons, lookupVar_cons, hw, hn, hwn]
      · simp [map_subst_cons, lookupVar_cons, hw, hn, hwn, ih]

lemma lookupVar_setVar (vars : List TypedVariable) (v : TypedVariable) (n : String) :
    lookupVar (setVar vars v) n = if n = v.name then some v else lookupVar vars n := by
  unfold setVar
  by_cases h : (lookupVar vars v.name).isSome
  · rw [if_pos h, lookupVar_map_subst]
    by_cases hn : n = v.name
    · rw [if_pos hn, if_pos hn]
      obtain ⟨w, hw⟩ := Option.isSome_iff_exists.mp h
      rw [hw]
      simp
    · rw [if_neg hn, if_neg hn]
  · rw [if_neg h, lookupVar_append_one]
    rw [Option.not_isSome_iff_eq_none] at h
    by_cases hn : n = v.name
    · subst hn
      simp [h]
    · have hvn : ¬ v.name = n := fun e => hn e.symm
      cases hv : lookupVar vars n with
      | some w => simp [hn]
      | none => simp [hn, hvn]

/-! ## Helper lemmas: branch merging -/

lemma lookupVar_mergeSetVars (a b : List TypedVariable) (n : String)
    (hb : (varNames b).Nodup) :
    lookupVar (VariableTable.mergeSetVars a b) n =
      match lookupVar a n, lookupVar b n with
      | some x, some y => some ⟨x.name, TypeString.merge x.type y.type⟩
      | some x, none => some x
      | none, some y => some y
      | none, none => none := by
  induction b generalizing a with
  | nil =>
    have h0 : lookupVar ([] : List TypedVariable) n = none := rfl
    have hm : VariableTable.mergeSetVars a [] = a := rfl
    rw [hm, h0]
    cases ha : lookupVar a n <;> simp
  | cons tv rest ih =>
    have hnodup : (varNames rest).Nodup := by
      simpa [varNames] using hb.of_cons
    have hnotmem : tv.name ∉ varNames rest := by
      have := hb
      simp only [varNames, List.map_cons, List.nodup_cons] at this
      simpa [varNames] using this.1
    have hstep : VariableTable.mergeSetVars a (tv :: rest) =
        VariableTable.mergeSetVars
          (match lookupVar a tv.name with
           | some existing => updateVarType a tv.name (TypeString.merge existing.type tv.type)
           | none => a ++ [tv]) rest := rfl
    rw [hstep, ih _ hnodup]
    by_cases hn : n = tv.name
    · subst hn
      have hrest : lookupVar rest tv.name = none := lookupVar_of_not_mem hnotmem
      rw [lookupVar_cons, if_pos rfl, hrest]
      cases ha : lookupVar a tv.name <;>
        simp [lookupVar_updateVarType, lookupVar_append_one, ha]
    · have htv : ¬ tv.name = n := fun e => hn e.symm
      rw [lookupVar_cons, if_neg htv]
      cases hat : lookupVar a tv.name <;> cases ha : lookupVar a n <;>
        simp [lookupVar_updateVarType, lookupVar_append_one, hn, htv, ha, hat]

lemma lookupVar_foldl_mergeSetVars (bs : List TypedVariableSet) (a : List TypedVariable)
    (n : String) (hbs : ∀ b ∈ bs, (varNames b.vars).Nodup) :
    lookupVar (bs.foldl (fun vs b => VariableTable.mergeSetVars vs b.vars) a) n =
      combinePruned n (lookupVar a n)
        (bs.filterMap (fun b => (lookupVar b.vars n).map TypedVariable.type)) := by
  induction bs generalizing a with
  | nil => cases ha : lookupVar a n <;> simp [combinePruned, ha]
  | cons b rest ih =>
    have hb : (varNames b.vars).Nodup := hbs b (by simp)
    have hrest : ∀ b2 ∈ rest, (varNames b2.vars).Nodup := fun b2 h2 => hbs b2 (by simp [h2])
    rw [List.foldl_cons, ih _ hrest, lookupVar_mergeSetVars _ _ _ hb]
    cases ha : lookupVar a n with
    | some x =>
      cases hbn : lookupVar b.vars n with
      | some y => simp [combinePruned, hbn]
      | none => simp [combinePruned, hbn]
    | none =>
      cases hbn : lookupVar b.vars n with
      | some y =>
        obtain ⟨yn, yt⟩ := y
        have hy : yn = n := lookupVar_keeps_name hbn
        subst hy
        simp [combinePruned, hbn]
      | none => simp [combinePruned, hbn]

lemma combinePruned_some (n : String) (v : TypedVariable) (ts : List String) :
    combinePruned n (some v) ts = some ⟨v.name, ts.foldl TypeString.merge v.type⟩ := by
  induction ts generalizing v with
  | nil => simp [combinePruned]
  | cons t rest ih => simp [combinePruned, ih]

lemma combinePruned_none (n : String) (ts : List String) :
    combinePruned n none ts =
      match ts with
      | [] => none
      | t :: rest => some ⟨n, rest.foldl TypeString.merge t⟩ := by
  cases ts with
  | nil => simp [combinePruned]
  | cons t rest => simp [combinePruned, combinePruned_some]

/-! ## Helper lemmas: lookup walk and scope capture -/

lemma getTypeFrom_eq_firstBound (stack : VariableTable.Stack) (n : String) :
    VariableTable.getTypeFrom n stack = firstBoundType (visibleSets stack) n := by
  induction stack with
  | nil => rfl
  | cons s rest ih =>
    cases hv : lookupVar s.vars n <;> by_cases hk : s.kind = .Scope <;>
      simp [VariableTable.getTypeFrom, visibleSets, firstBoundType, hv, hk, ih]

lemma getType_eq_firstBound (stack : VariableTable.Stack) (n : String) :
    VariableTable.getType stack n "" = firstBoundType (visibleSets stack) n := by
  rw [VariableTable.getType, if_neg (by simp)]
  exact getTypeFrom_eq_firstBound stack n

lemma lookupVar_carried_foldl (stack : VariableTable.Stack) (names : List String)
    (vs : List TypedVariable) (n : String) :
    lookupVar
      (names.foldl
        (fun vs2 m =>
          if VariableTable.getType stack m "" ≠ "" then
            setVar vs2 ⟨m, VariableTable.getType stack m ""⟩
          else vs2)
        vs) n =
      if n ∈ names ∧ VariableTable.getType stack n "" ≠ "" then
        some ⟨n, VariableTable.getType stack n ""⟩
      else lookupVar vs n := by
  induction names generalizing vs with
  | nil => simp
  | cons m rest ih =>
    rw [List.foldl_cons, ih]
    by_cases hmem : n ∈ rest ∧ VariableTable.getType stack n "" ≠ ""
    · rw [if_pos hmem, if_pos ⟨List.mem_cons_of_mem _ hmem.1, hmem.2⟩]
    · rw [if_neg hmem]
      by_cases hm : m = n
      · subst hm
        by_cases ht : VariableTable.getType stack m "" ≠ ""
        · rw [if_pos ht, lookupVar_setVar, if_pos rfl, if_pos ⟨List.mem_cons_self m rest, ht⟩]
        · rw [if_neg ht]
          rw [if_neg (fun hc => ht hc.2)]
      · have hnm : ¬ (n ∈ m :: rest ∧ VariableTable.getType stack n "" ≠ "") := by
          intro hc
          rcases List.mem_cons.mp hc.1 with he | hr
          · exact hm he.symm
          · exact hmem ⟨hr, hc.2⟩
        rw [if_neg hnm]
        by_cases ht : VariableTable.getType stack m "" ≠ ""
        · rw [if_pos ht, lookupVar_setVar, if_neg (fun e => hm e.symm)]
        · rw [if_neg ht]

lemma lookupVar_carriedVars (stack : VariableTable.Stack) (names : List String) (n : String) :
    lookupVar (VariableTable.carriedVars stack names) n =
      if n ∈ names ∧ VariableTable.getType stack n "" ≠ "" then
        some ⟨n, VariableTable.getType stack n ""⟩
      else none := by
  rw [VariableTable.carriedVars, lookupVar_carried_foldl]
  rfl

/-! ## Claim theorems: the variable table -/

/-- C1: for every variable-table state whose recorded branch maps are
duplicate-free (automatic for JavaScript objects), `pruneBranches()` leaves
the rest of the stack unchanged, empties the recorded-children list of the
top set, and binds in the top set exactly the names bound in the top set or
in some recorded branch: a name with several recorded types ends up with
their type-string union (left fold of the type-string merge, starting from
the top set's own type when present), and a name bound only once keeps its
type unchanged. -/
theorem pruneBranches_joins_branches (top : TypedVariableSet) (rest : VariableTable.Stack)
    (hbr : ∀ b ∈ top.branches, (varNames b.vars).Nodup) :
    ∃ top2 : TypedVariableSet,
      VariableTable.pruneBranches (top :: rest) = top2 :: rest ∧
      top2.branches = [] ∧
      top2.kind = top.kind ∧
      ∀ n : String, lookupVar top2.vars n = prunedBinding top n := by
  refine ⟨_, rfl, rfl, rfl, ?_⟩
  intro n
  show lookupVar (top.branches.foldl (fun vs b => VariableTable.mergeSetVars vs b.vars) top.vars) n = _
  rw [lookupVar_foldl_mergeSetVars _ _ _ hbr]
  unfold prunedBinding boundTypes
  cases ht : lookupVar top.vars n with
  | some v =>
    have hv := lookupVar_keeps_name ht
    rw [combinePruned_some]
    simp [hv]
  | none =>
    rw [combinePruned_none]
    simp

/-- Witness for C1 at the join of `if ($c) { $x = 1; } else { $x = "s"; }`:
the two branch types of `$x` are union-merged, `$y` keeps its sole type, and
the recorded-children list is cleared. -/
theorem pruneBranches_joins_branches_witness :
    (∀ b ∈ demoJoinTop.branches, (varNames b.vars).Nodup) ∧
    (∃ top2 : TypedVariableSet,
      VariableTable.pruneBranches [demoJoinTop] = top2 :: ([] : VariableTable.Stack) ∧
      top2.branches = [] ∧
      top2.kind = demoJoinTop.kind ∧
      ∀ n : String, lookupVar top2.vars n = prunedBinding demoJoinTop n) ∧
    VariableTable.pruneBranches [demoJoinTop] =
      [TypedVariableSet.mk .Scope [⟨"$y", "bool"⟩, ⟨"$x", "int|string"⟩] []] :=
  ⟨by decide, pruneBranches_joins_branches demoJoinTop [] (by decide), rfl⟩

/-- C2: `getType` (with no class-name argument) returns the type of the
first set, walking from the top of the stack downwards, that binds the name,
and the walk never passes the nearest enclosing `Scope` set: its result is
determined by the stack prefix ending at that `Scope` set, so a binding
below the nearest `Scope` (for instance in a sibling or outer function) is
invisible and yields the empty string. -/
theorem getType_stops_at_nearest_scope (stack : VariableTable.Stack) (varName : String) :
    VariableTable.getType stack varName "" = firstBoundType (visibleSets stack) varName :=
  getType_eq_firstBound stack varName

/-- C9: `pushScope(carry)` pushes a fresh `Scope` set whose bindings are
exactly the carried names currently resolving to a non-empty type, captured
by value at push time; inside the new scope a name resolves to its captured
type if it was carried and to the empty string otherwise, regardless of what
the rest of the stack later looks like (so rebinding a carried name outside
the new scope cannot change the captured type). -/
theorem pushScope_captures_by_value (stack : VariableTable.Stack) (carry : List String)
    (n : String) :
    VariableTable.pushScope stack (some carry) =
      VariableTable.carriedScope stack (some carry) :: stack ∧
    lookupVar (VariableTable.carriedScope stack (some carry)).vars n =
      (if n ∈ carry ∧ VariableTable.getType stack n "" ≠ "" then
        some ⟨n, VariableTable.getType stack n ""⟩
      else none) ∧
    ∀ tl : VariableTable.Stack,
      VariableTable.getType (VariableTable.carriedScope stack (some carry) :: tl) n "" =
        (if n ∈ carry then VariableTable.getType stack n "" else "") := by
  refine ⟨rfl, lookupVar_carriedVars stack carry n, ?_⟩
  intro tl
  rw [VariableTable.getType, if_neg (by simp)]
  show VariableTable.getTypeFrom n (VariableTable.carriedScope stack (some carry) :: tl) = _
  rw [VariableTable.getTypeFrom]
  have hvars : (VariableTable.carriedScope stack (some carry)).vars =
      VariableTable.carriedVars stack carry := rfl
  rw [hvars, lookupVar_carriedVars]
  by_cases hc : n ∈ carry
  · by_cases ht : VariableTable.getType stack n "" ≠ ""
    · rw [if_pos ⟨hc, ht⟩, if_pos hc]
    · rw [if_neg (fun h => ht h.2), if_pos hc]
      push_neg at ht
      rw [ht]
      rfl
  · rw [if_neg (fun h => hc h.1), if_neg hc]
    rfl

/-- C10: `getType("$this", className)` with a non-empty class name returns
the class name immediately, bypassing the stack (any recorded binding of
`$this` included); with no class name supplied, `$this` is looked up through
the stack like any other name. -/
theorem getType_this_bypasses_stack (stack : VariableTable.Stack) (className : String)
    (h : className ≠ "") :
    VariableTable.getType stack "$this" className = className ∧
    VariableTable.getType stack "$this" "" = firstBoundType (visibleSets stack) "$this" := by
  constructor
  · rw [VariableTable.getType, if_pos ⟨rfl, h⟩]
  · exact getType_eq_firstBound stack "$this"

/-- Witness for C10 on a stack that binds `$this` to `Bar`: the supplied
class name `Foo` wins, and the plain lookup still sees the binding. -/
theorem getType_this_bypasses_stack_witness :
    ("Foo" ≠ "") ∧
    (VariableTable.getType demoThisStack "$this" "Foo" = "Foo" ∧
     VariableTable.getType demoThisStack "$this" "" =
       firstBoundType (visibleSets demoThisStack) "$this") :=
  ⟨by decide, getType_this_bypasses_stack demoThisStack "Foo" (by decide)⟩

/-! ## Helper lemmas: member aggregation -/

lemma mem_addUnique (acc xs : List PhpSymbol) (y : PhpSymbol) :
    y ∈ addUnique acc xs ↔ y ∈ acc ∨ y ∈ xs := by
  induction xs generalizing acc with
  | nil => simp [addUnique]
  | cons x rest ih =>
    have hstep : addUnique acc (x :: rest) =
        addUnique (if x ∈ acc then acc else acc ++ [x]) rest := rfl
    rw [hstep, ih, List.mem_cons]
    by_cases hx : x ∈ acc
    · rw [if_pos hx]
      constructor
      · rintro (h | h)
        · exact Or.inl h
        · exact Or.inr (Or.inr h)
      · rintro (h | h | h)
        · exact Or.inl h
        · exact Or.inl (h ▸ hx)
        · exact Or.inr h
    · rw [if_neg hx]
      rw [List.mem_append, List.mem_singleton]
      tauto

lemma nodup_addUnique (acc xs : List PhpSymbol) (h : acc.Nodup) :
    (addUnique acc xs).Nodup := by
  induction xs generalizing acc with
  | nil => exact h
  | cons x rest ih =>
    have hstep : addUnique acc (x :: rest) =
        addUnique (if x ∈ acc then acc else acc ++ [x]) rest := rfl
    rw [hstep]
    by_cases hx : x ∈ acc
    · rw [if_pos hx]
      exact ih _ h
    · rw [if_neg hx]
      refine ih _ ?_
      rw [List.nodup_append]
      refine ⟨h, List.nodup_singleton x, ?_⟩
      intro a ha hb
      rw [List.mem_singleton] at hb
      exact hx (hb ▸ ha)

lemma findChild_sat {p : PhpSymbol → Bool} {s : PhpSymbol} :
    ∀ {l : SymTreeList}, SymTreeList.findChild p l = some s → p s = true
  | .nil, h => by cases h
  | .cons hd tl, h => by
    rw [SymTreeList.findChild] at h
    by_cases hp : p hd.sym = true
    · rw [if_pos hp] at h
      cases h
      exact hp
    · rw [if_neg (by simpa using hp)] at h
      exact findChild_sat h

/-! ## Claim theorems: symbol resolution -/

/-- C3 (code bug): the source's `Set.prototype.add.apply(members,
type.members(predicate))` spreads the filtered member array into the
argument list of `Set.prototype.add`, which consumes only its first
parameter.  On the union receiver `A|B` only the first matching method of
each atomic class is collected, so the shared inherited method is lost —
where the claimed behaviour (`findMembersClaimed`, the spec's wording) is
the full deduplicated union — and a known class with no matching member
contributes the `undefined` that the zero-argument `add()` inserts. -/
theorem findMembers_first_member_code_bug :
    Reference.findMembers demoMemberStore "A|B"
        (Reference.methodFn (lowerCase demoMethodRef.name)) =
      [some demoMethodA, some demoMethodB] ∧
    Reference.findMembersClaimed demoMemberStore "A|B"
        (Reference.methodFn (lowerCase demoMethodRef.name)) =
      [demoMethodA, demoSharedMethod, demoMethodB] ∧
    demoSharedMethod ∉ Reference.findSymbols demoMethodRef demoMemberStore "u" ∧
    Reference.findSymbols demoMethodRef demoMemberStore "u" =
      [demoMethodA, demoMethodB] ∧
    Reference.findMembers demoMemberStore "A|E"
        (Reference.methodFn (lowerCase demoMethodRef.name)) =
      [some demoMethodA, none] :=
  ⟨by decide, by decide, by decide, by decide, by decide⟩

/-- Counterexample to C7 as stated: the claim admits plain named functions
as variable scopes, but the source filter only admits methods and
anonymous-modified functions.  Here the innermost declaration enclosing the
reference is a named function that binds `$x` as an immediate child — the
claim-side resolution returns that binding, while `findSymbols` falls back
to the file root and returns nothing. -/
theorem findSymbols_variable_counterexample :
    Reference.findSymbols demoVarRef demoVarStore "doc" = [] ∧
    Reference.variableSymbolsClaimed demoVarRef demoVarStore "doc" = [demoVarSym] ∧
    demoFnSym.kind = SymbolKind.Function ∧
    demoFnSym.modifiers &&& SymbolModifier.Anonymous = 0 ∧
    demoFnSym.location = some (demoRange 1 0 3 1) ∧
    isInRange demoVarRef.range.start (demoRange 1 0 3 1).start (demoRange 1 0 3 1).endPos = 0 ∧
    Reference.paramVarFn demoVarRef.name demoVarSym = true := by
  decide

/-- C7 (amended): for a variable reference, `findSymbols` selects the
innermost enclosing method or anonymous-function declaration whose span
contains the reference's start position — plain named functions are not
treated as variable scopes — falling back to the file-level root when none
matches, and returns the at-most-one immediate parameter/variable child of
that declaration whose name matches exactly. -/
theorem findSymbols_variable_scope (store : SymbolStore) (uri : String) (ref : Reference)
    (h : ref.kind = SymbolKind.Variable) :
    Reference.findSymbols ref store uri = Reference.variableSymbolsSpec ref store uri ∧
    (Reference.findSymbols ref store uri).length ≤ 1 ∧
    ∀ s ∈ Reference.findSymbols ref store uri,
      Reference.paramVarFn ref.name s = true := by
  have hfs : Reference.findSymbols ref store uri =
      Reference.variableSymbolsSpec ref store uri := by
    rw [Reference.findSymbols, if_neg (by rw [h]; decide), if_neg (by rw [h]; decide),
      if_neg (by rw [h]; decide), if_neg (by rw [h]; decide), if_neg (by rw [h]; decide),
      if_pos h, Reference.variableSymbolsSpec]
  refine ⟨hfs, ?_, ?_⟩
  · rw [hfs, Reference.variableSymbolsSpec]
    split
    · simp
    · split <;> simp
  · intro s hs
    rw [hfs, Reference.variableSymbolsSpec] at hs
    split at hs
    · cases hs
    · split at hs
      · rename_i s2 hc
        rw [List.mem_singleton] at hs
        subst hs
        exact findChild_sat hc
      · cases hs

/-- Witness for C7 (amended): a method encloses `$y`, so the lookup
succeeds and returns exactly that binding. -/
theorem findSymbols_variable_scope_witness :
    demoMethVarRef.kind = SymbolKind.Variable ∧
    (Reference.findSymbols demoMethVarRef demoMethStore "doc" =
      Reference.variableSymbolsSpec demoMethVarRef demoMethStore "doc" ∧
     (Reference.findSymbols demoMethVarRef demoMethStore "doc").length ≤ 1 ∧
     ∀ s ∈ Reference.findSymbols demoMethVarRef demoMethStore "doc",
       Reference.paramVarFn demoMethVarRef.name s = true) ∧
    Reference.findSymbols demoMethVarRef demoMethStore "doc" = [demoMethVarSym] :=
  ⟨by decide, findSymbols_variable_scope demoMethStore "doc" demoMethVarRef (by decide), rfl⟩

/-- C8: for a function or constant reference, `findSymbols` retries under
`altName` exactly when the lookup under `name` (with the same exact-kind
filter) is empty and `altName` is set; otherwise the `name` lookup's result
stands. -/
theorem findSymbols_altName_fallback (store : SymbolStore) (uri : String) (ref : Reference)
    (h : ref.kind = SymbolKind.Function ∨ ref.kind = SymbolKind.Constant) :
    Reference.findSymbols ref store uri =
      (if store.find ref.name (Reference.kindFn ref.kind) = [] ∧ ref.altName ≠ "" then
        store.find ref.altName (Reference.kindFn ref.kind)
      else store.find ref.name (Reference.kindFn ref.kind)) := by
  have h1 : ¬ (ref.kind = SymbolKind.Class ∨ ref.kind = SymbolKind.Interface ∨
      ref.kind = SymbolKind.Trait) := by
    rcases h with hk | hk <;> rw [hk] <;> decide
  rw [Reference.findSymbols, if_neg h1, if_pos h]
  by_cases hc : store.find ref.name (Reference.kindFn ref.kind) = [] ∧ ref.altName ≠ ""
  · rw [if_pos hc, if_pos ⟨by rw [hc.1]; decide, hc.2⟩]
  · rw [if_neg hc, if_neg ?_]
    intro hcc
    exact hc ⟨List.length_eq_zero.mp (Nat.lt_one_iff.mp hcc.1), hcc.2⟩

/-- Witness for C8: `App\strlen` is undeclared, so the reference resolves
through its `altName` to the global `strlen` declaration. -/
theorem findSymbols_altName_fallback_witness :
    (demoFallbackRef.kind = SymbolKind.Function ∨ demoFallbackRef.kind = SymbolKind.Constant) ∧
    Reference.findSymbols demoFallbackRef demoFallbackStore "u" =
      (if demoFallbackStore.find demoFallbackRef.name (Reference.kindFn demoFallbackRef.kind) = [] ∧
          demoFallbackRef.altName ≠ "" then
        demoFallbackStore.find demoFallbackRef.altName (Reference.kindFn demoFallbackRef.kind)
      else demoFallbackStore.find demoFallbackRef.name (Reference.kindFn demoFallbackRef.kind)) ∧
    Reference.findSymbols demoFallbackRef demoFallbackStore "u" = [demoGlobalFn] :=
  ⟨by decide, findSymbols_altName_fallback demoFallbackStore "u" demoFallbackRef (by decide), rfl⟩

/-! ## Helper lemmas: the flow pass -/

lemma applyHalt_none (n : PNode) (e : Bool) (st : FlowState) :
    applyHalt none n e st = st := rfl

lemma applyHalt_some_cases (o : Nat) (n : PNode) (e : Bool) (st : FlowState) :
    applyHalt (some o) n e st = st ∨
      applyHalt (some o) n e st = { st with halt := true } := by
  rw [applyHalt]
  split
  · exact Or.inr rfl
  · exact Or.inl rfl

set_option maxHeartbeats 1000000 in
lemma flowPre_spec (p : Option PNode) (n : PNode) (st : FlowState) :
    ∃ extra : List Reference,
      (flowPre p n st).1.refs = st.refs ++ extra ∧
      (flowPre p n st).1.halt = st.halt ∧
      ((flowPre p n st).2.2 = true → (flowPre p n st).2.1 = false) := by
  cases n with
  | token tt o l r tx =>
    exact ⟨[], (List.append_nil _).symm, rfl, fun h => nomatch h⟩
  | phrase pt o l r cs =>
    cases cs with
    | nil =>
      rw [flowPre]
      split_ifs <;>
        (refine ⟨[], (List.append_nil _).symm, rfl, fun h => ?_⟩
         first
           | rfl
           | simp at h)
    | cons c ctl =>
      rw [flowPre]
      split_ifs <;>
        first
          | (refine ⟨[], (List.append_nil _).symm, rfl, fun h => ?_⟩
             simp at h)
          | exact ⟨[], (List.append_nil _).symm, rfl, fun _ => rfl⟩
          | exact ⟨[Reference.create SymbolKind.Variable c.nodeText c.range], rfl, rfl,
              fun _ => rfl⟩
          | (show ∃ extra,
                (emitNarrowedVar (some c) st).refs = st.refs ++ extra ∧
                (emitNarrowedVar (some c) st).halt = st.halt ∧
                ((true : Bool) = true → (false : Bool) = false)
             rw [emitNarrowedVar]
             split
             · exact ⟨[Reference.create SymbolKind.Variable c.nodeText c.range], rfl, rfl,
                 fun _ => rfl⟩
             · exact ⟨[], (List.append_nil _).symm, rfl, fun _ => rfl⟩)

lemma flowPost_spec (n : PNode) (st : FlowState) :
    (flowPost n st).refs = st.refs ∧ (flowPost n st).halt = st.halt := by
  cases n with
  | token tt o l r tx => exact ⟨rfl, rfl⟩
  | phrase pt o l r cs =>
    rw [flowPost]
    split_ifs <;> exact ⟨rfl, rfl⟩

lemma applyHalt_refs (off : Option Nat) (n : PNode) (e : Bool) (st : FlowState) :
    (applyHalt off n e st).refs = st.refs := by
  cases off with
  | none => rfl
  | some o =>
    rw [applyHalt]
    split <;> rfl

lemma applyHalt_not_eligible (off : Option Nat) (n : PNode) (st : FlowState) :
    applyHalt off n false st = st := by
  cases off with
  | none => rfl
  | some o =>
    rw [applyHalt]
    rw [if_neg (by simp)]

lemma flowVisit_halted (off : Option Nat) (p : Option PNode) (n : PNode) (st : FlowState)
    (h : st.halt = true) : flowVisit off p n st = st := by
  cases n <;> (rw [flowVisit]; rw [if_pos h])

lemma flowVisitList_halted (off : Option Nat) (p : Option PNode) :
    ∀ (cs : PNodeList) (st : FlowState), st.halt = true → flowVisitList off p cs st = st
  | .nil, _, _ => rfl
  | .cons hd tl, st, h => by
    rw [flowVisitList, flowVisit_halted off p hd st h]
    exact flowVisitList_halted off p tl st h

mutual
lemma flowVisit_none_halt : ∀ (p : Option PNode) (n : PNode) (st : FlowState),
    (flowVisit none p n st).halt = st.halt
  | p, .phrase pt o2 l2 r2 cs, st => by
    by_cases h : st.halt = true
    · rw [flowVisit_halted none p (.phrase pt o2 l2 r2 cs) st h]
    · rw [flowVisit, if_neg h]
      dsimp only
      rw [applyHalt_none]
      obtain ⟨extra, hrefs, hhalt, helig⟩ := flowPre_spec p (.phrase pt o2 l2 r2 cs) st
      by_cases hd : (flowPre p (.phrase pt o2 l2 r2 cs) st).2.1 = true
      · rw [if_pos hd]
        have h2 : (flowVisitList none (some (.phrase pt o2 l2 r2 cs)) cs
            (flowPre p (.phrase pt o2 l2 r2 cs) st).1).halt = st.halt := by
          rw [flowVisitList_none_halt (some (.phrase pt o2 l2 r2 cs)) cs
            (flowPre p (.phrase pt o2 l2 r2 cs) st).1, hhalt]
        rw [if_neg (by rw [h2]; exact h), (flowPost_spec _ _).2, h2]
      · rw [if_neg hd]
        rw [if_neg (by rw [hhalt]; exact h), (flowPost_spec _ _).2, hhalt]
  | p, .token tt o2 l2 r2 tx, st => by
    by_cases h : st.halt = true
    · rw [flowVisit_halted none p (.token tt o2 l2 r2 tx) st h]
    · rw [flowVisit, if_neg h]
      dsimp only
      rw [applyHalt_none]
      obtain ⟨extra, hrefs, hhalt, helig⟩ := flowPre_spec p (.token tt o2 l2 r2 tx) st
      rw [if_neg (by rw [hhalt]; exact h), (flowPost_spec _ _).2, hhalt]

lemma flowVisitList_none_halt : ∀ (p : Option PNode) (cs : PNodeList) (st : FlowState),
    (flowVisitList none p cs st).halt = st.halt
  | _, .nil, _ => rfl
  | p, .cons hd tl, st => by
    rw [flowVisitList, flowVisitList_none_halt p tl (flowVisit none p hd st),
      flowVisit_none_halt p hd st]
end

mutual
lemma flowVisit_refs_mono : ∀ (off : Option Nat) (p : Option PNode) (n : PNode) (st : FlowState),
    st.refs <+: (flowVisit off p n st).refs
  | off, p, .phrase pt o2 l2 r2 cs, st => by
    by_cases h : st.halt = true
    · rw [flowVisit_halted off p (.phrase pt o2 l2 r2 cs) st h]
    · rw [flowVisit, if_neg h]
      dsimp only
      obtain ⟨extra, hrefs, hhalt, helig⟩ := flowPre_spec p (.phrase pt o2 l2 r2 cs) st
      have h1 : st.refs <+: (applyHalt off (.phrase pt o2 l2 r2 cs)
          (flowPre p (.phrase pt o2 l2 r2 cs) st).2.2
          (flowPre p (.phrase pt o2 l2 r2 cs) st).1).refs := by
        rw [applyHalt_refs, hrefs]
        exact List.prefix_append _ _
      by_cases hd : (flowPre p (.phrase pt o2 l2 r2 cs) st).2.1 = true
      · rw [if_pos hd]
        have h2 := flowVisitList_refs_mono off (some (.phrase pt o2 l2 r2 cs)) cs
          (applyHalt off (.phrase pt o2 l2 r2 cs)
            (flowPre p (.phrase pt o2 l2 r2 cs) st).2.2
            (flowPre p (.phrase pt o2 l2 r2 cs) st).1)
        have h3 := h1.trans h2
        split
        · exact h3
        · rw [(flowPost_spec _ _).1]
          exact h3
      · rw [if_neg hd]
        split
        · exact h1
        · rw [(flowPost_spec _ _).1]
          exact h1
  | off, p, .token tt o2 l2 r2 tx, st => by
    by_cases h : st.halt = true
    · rw [flowVisit_halted off p (.token tt o2 l2 r2 tx) st h]
    · rw [flowVisit, if_neg h]
      dsimp only
      obtain ⟨extra, hrefs, hhalt, helig⟩ := flowPre_spec p (.token tt o2 l2 r2 tx) st
      have h1 : st.refs <+: (applyHalt off (.token tt o2 l2 r2 tx)
          (flowPre p (.token tt o2 l2 r2 tx) st).2.2
          (flowPre p (.token tt o2 l2 r2 tx) st).1).refs := by
        rw [applyHalt_refs, hrefs]
        exact List.prefix_append _ _
      split
      · exact h1
      · rw [(flowPost_spec _ _).1]
        exact h1

lemma flowVisitList_refs_mono : ∀ (off : Option Nat) (p : Option PNode) (cs : PNodeList)
    (st : FlowState), st.refs <+: (flowVisitList off p cs st).refs
  | _, _, .nil, _ => List.prefix_rfl
  | off, p, .cons hd tl, st => by
    rw [flowVisitList]
    exact (flowVisit_refs_mono off p hd st).trans
      (flowVisitList_refs_mono off p tl (flowVisit off p hd st))
end

mutual
lemma flowVisit_prefix_run : ∀ (o : Nat) (p : Option PNode) (n : PNode) (st : FlowState),
    st.halt = false →
    (((flowVisit (some o) p n st).halt = false →
        flowVisit (some o) p n st = flowVisit none p n st) ∧
      (flowVisit (some o) p n st).refs <+: (flowVisit none p n st).refs)
  | o, p, .phrase pt o2 l2 r2 cs, st, hst => by
    have hstt : ¬ st.halt = true := by rw [hst]; exact Bool.false_ne_true
    rw [flowVisit, flowVisit, if_neg hstt, if_neg hstt]
    dsimp only
    rw [applyHalt_none]
    obtain ⟨extra, hrefs, hhalt, helig⟩ := flowPre_spec p (.phrase pt o2 l2 r2 cs) st
    have hp1halt : (flowPre p (.phrase pt o2 l2 r2 cs) st).1.halt = false := by
      rw [hhalt, hst]
    have hp1haltne : ¬ (flowPre p (.phrase pt o2 l2 r2 cs) st).1.halt = true := by
      rw [hp1halt]; exact Bool.false_ne_true
    rcases applyHalt_some_cases o (.phrase pt o2 l2 r2 cs)
        (flowPre p (.phrase pt o2 l2 r2 cs) st).2.2
        (flowPre p (.phrase pt o2 l2 r2 cs) st).1 with hA | hA
    · rw [hA]
      by_cases hd : (flowPre p (.phrase pt o2 l2 r2 cs) st).2.1 = true
      · rw [if_pos hd, if_pos hd]
        obtain ⟨ihEq, ihPre⟩ := flowVisitList_prefix_run o (some (.phrase pt o2 l2 r2 cs)) cs
          (flowPre p (.phrase pt o2 l2 r2 cs) st).1 hp1halt
        have hL2halt : (flowVisitList none (some (.phrase pt o2 l2 r2 cs)) cs
            (flowPre p (.phrase pt o2 l2 r2 cs) st).1).halt = false := by
          rw [flowVisitList_none_halt, hp1halt]
        have hL2haltne : ¬ (flowVisitList none (some (.phrase pt o2 l2 r2 cs)) cs
            (flowPre p (.phrase pt o2 l2 r2 cs) st).1).halt = true := by
          rw [hL2halt]; exact Bool.false_ne_true
        by_cases hLh : (flowVisitList (some o) (some (.phrase pt o2 l2 r2 cs)) cs
            (flowPre p (.phrase pt o2 l2 r2 cs) st).1).halt = true
        · rw [if_pos hLh, if_neg hL2haltne]
          constructor
          · intro hc
            rw [hLh] at hc
            simp at hc
          · rw [(flowPost_spec _ _).1]
            exact ihPre
        · have hEq := ihEq (Bool.eq_false_iff.mpr hLh)
          rw [if_neg hLh, hEq, if_neg hL2haltne]
          exact ⟨fun _ => rfl, List.prefix_rfl⟩
      · rw [if_neg hd, if_neg hd, if_neg hp1haltne]
        exact ⟨fun _ => rfl, List.prefix_rfl⟩
    · rw [hA]
      have hhalted : (if (flowPre p (.phrase pt o2 l2 r2 cs) st).2.1 = true then
            flowVisitList (some o) (some (.phrase pt o2 l2 r2 cs)) cs
              { (flowPre p (.phrase pt o2 l2 r2 cs) st).1 with halt := true }
          else { (flowPre p (.phrase pt o2 l2 r2 cs) st).1 with halt := true }) =
          { (flowPre p (.phrase pt o2 l2 r2 cs) st).1 with halt := true } := by
        by_cases hd : (flowPre p (.phrase pt o2 l2 r2 cs) st).2.1 = true
        · rw [if_pos hd, flowVisitList_halted _ _ _ _ rfl]
        · rw [if_neg hd]
      rw [hhalted, if_pos rfl]
      constructor
      · intro hc
        exact absurd hc (by simp)
      · show (flowPre p (.phrase pt o2 l2 r2 cs) st).1.refs <+: _
        have hL2halt : ¬ (flowVisitList none (some (.phrase pt o2 l2 r2 cs)) cs
            (flowPre p (.phrase pt o2 l2 r2 cs) st).1).halt = true := by
          rw [flowVisitList_none_halt, hp1halt]
          exact Bool.false_ne_true
        by_cases hd : (flowPre p (.phrase pt o2 l2 r2 cs) st).2.1 = true
        case pos =>
          rw [if_pos hd, if_neg hL2halt, (flowPost_spec _ _).1]
          exact flowVisitList_refs_mono none (some (.phrase pt o2 l2 r2 cs)) cs
            (flowPre p (.phrase pt o2 l2 r2 cs) st).1
        case neg =>
          rw [if_neg hd, if_neg hp1haltne, (flowPost_spec _ _).1]
  | o, p, .token tt o2 l2 r2 tx, st, hst => by
    have hstt : ¬ st.halt = true := by rw [hst]; exact Bool.false_ne_true
    rw [flowVisit, flowVisit, if_neg hstt, if_neg hstt]
    dsimp only
    rw [applyHalt_none]
    have he : (flowPre p (.token tt o2 l2 r2 tx) st).2.2 = false := rfl
    rw [he, applyHalt_not_eligible]
    exact ⟨fun _ => rfl, List.prefix_rfl⟩

lemma flowVisitList_prefix_run : ∀ (o : Nat) (p : Option PNode) (cs : PNodeList)
    (st : FlowState), st.halt = false →
    (((flowVisitList (some o) p cs st).halt = false →
        flowVisitList (some o) p cs st = flowVisitList none p cs st) ∧
      (flowVisitList (some o) p cs st).refs <+: (flowVisitList none p cs st).refs)
  | _, _, .nil, _, _ => ⟨fun _ => rfl, List.prefix_rfl⟩
  | o, p, .cons hd tl, st, hst => by
    rw [flowVisitList, flowVisitList]
    obtain ⟨nEq, nPre⟩ := flowVisit_prefix_run o p hd st hst
    by_cases hh : (flowVisit (some o) p hd st).halt = true
    · rw [flowVisitList_halted (some o) p tl _ hh]
      constructor
      · intro hc
        rw [hh] at hc
        simp at hc
      · exact nPre.trans (flowVisitList_refs_mono none p tl (flowVisit none p hd st))
    · have hEqn := nEq (Bool.eq_false_iff.mpr hh)
      rw [hEqn]
      have hfvhalt : (flowVisit none p hd st).halt = false := by
        rw [flowVisit_none_halt]
        exact hst
      exact flowVisitList_prefix_run o p tl (flowVisit none p hd st) hfvhalt
end

/-! ## Claim theorems: halting -/

/-- Counterexample to C4 as stated: with the halt offset inside an
assignment handled by the special case, the halted traversal emits the very
same reference sequence as the unhalted one when the assignment is the last
emission of the document — a prefix, but not a strict one. -/
theorem flow_halt_counterexample :
    ParsedDocument.isOffsetInNode 2 demoAssignNode = true ∧
    ParsedDocument.isPhraseOf demoAssignNode.firstChild
      [PhraseType.SimpleVariable, PhraseType.ListIntrinsic] = true ∧
    (flowVisit (some 2) none demoAssignNode initFlowState).halt = true ∧
    (flowVisit (some 2) none demoAssignNode initFlowState).refs =
      (flowVisit none none demoAssignNode initFlowState).refs ∧
    ¬ ((flowVisit (some 2) none demoAssignNode initFlowState).refs <+:
          (flowVisit none none demoAssignNode initFlowState).refs ∧
        (flowVisit (some 2) none demoAssignNode initFlowState).refs ≠
          (flowVisit none none demoAssignNode initFlowState).refs) := by
  refine ⟨by decide, by decide, by decide, by decide, ?_⟩
  rintro ⟨-, hne⟩
  exact hne (by decide)

/-- C4 (amended): a traversal given a halt offset emits a prefix of the
unhalted traversal's reference sequence — every reference emitted before
the halt is identical to its counterpart — the prefix is strict exactly
when the unhalted run emits further references after the halting node
(the halted sequence, a prefix, differs from the full one precisely when
it is shorter), and once the halt flag is set the traversal performs no
further work at all. -/
theorem flow_halt_emits_prefixOf (off : Nat) (t : PNode) :
    ((flowVisit (some off) none t initFlowState).refs <+:
      (flowVisit none none t initFlowState).refs) ∧
    ((flowVisit (some off) none t initFlowState).refs ≠
        (flowVisit none none t initFlowState).refs ↔
      (flowVisit (some off) none t initFlowState).refs.length <
        (flowVisit none none t initFlowState).refs.length) ∧
    ∀ (o : Option Nat) (p : Option PNode) (n : PNode) (st : FlowState),
      st.halt = true → flowVisit o p n st = st := by
  have hpre := (flowVisit_prefix_run off none t initFlowState rfl).2
  refine ⟨hpre, ⟨?_, ?_⟩, fun o p n st h => flowVisit_halted o p n st h⟩
  · intro hne
    exact Nat.lt_of_le_of_ne hpre.length_le (fun hl => hne (hpre.eq_of_length hl))
  · intro hlt heq
    rw [heq] at hlt
    exact Nat.lt_irrefl _ hlt

/-- Witness for C4 (amended): on the root assignment the halted run's
references form a prefix of the unhalted run's and a halted state is a
fixed point of the traversal; on the two-assignment document the unhalted
run emits a further reference after the halting node, and the prefix is
strict. -/
theorem flow_halt_emits_prefixOf_witness :
    (((flowVisit (some 2) none demoAssignNode initFlowState).refs <+:
        (flowVisit none none demoAssignNode initFlowState).refs) ∧
      ((flowVisit (some 2) none demoAssignNode initFlowState).refs ≠
          (flowVisit none none demoAssignNode initFlowState).refs ↔
        (flowVisit (some 2) none demoAssignNode initFlowState).refs.length <
          (flowVisit none none demoAssignNode initFlowState).refs.length) ∧
      ∀ (o : Option Nat) (p : Option PNode) (n : PNode) (st : FlowState),
        st.halt = true → flowVisit o p n st = st) ∧
    flowVisit none none demoAssignNode ⟨VariableTable.init, [], true⟩ =
      ⟨VariableTable.init, [], true⟩ ∧
    (flowVisit (some 2) none demoTwoAssigns initFlowState).refs <+:
      (flowVisit none none demoTwoAssigns initFlowState).refs ∧
    (flowVisit (some 2) none demoTwoAssigns initFlowState).refs ≠
      (flowVisit none none demoTwoAssigns initFlowState).refs :=
  ⟨flow_halt_emits_prefixOf 2 demoAssignNode,
   (flow_halt_emits_prefixOf 2 demoAssignNode).2.2 none none demoAssignNode
     ⟨VariableTable.init, [], true⟩ rfl,
   (flow_halt_emits_prefixOf 2 demoTwoAssigns).1,
   (flow_halt_emits_prefixOf 2 demoTwoAssigns).2.1.mpr (by decide)⟩

/-! ## Helper lemmas: the name pass -/

lemma posLE_iff (a b : Position) :
    posLE a b = true ↔ (a.line < b.line ∨ (a.line = b.line ∧ a.character ≤ b.character)) := by
  simp [posLE]

lemma posLE_refl (a : Position) : posLE a a = true := by
  rw [posLE_iff]
  omega

lemma posLE_trans {a b c : Position} (h1 : posLE a b = true) (h2 : posLE b c = true) :
    posLE a c = true := by
  rw [posLE_iff] at h1 h2 ⊢
  omega

lemma pushName_range (res : NameResolver) (s : String) (t : Transform) :
    (Transform.pushName res s t).value.range = t.value.range := by
  cases t with
  | fqnT v => rfl
  | rqnT v => rfl
  | qnT v =>
    rw [Transform.pushName]
    split <;> rfl

lemma stackShape_cons (x : Option Transform) (ts : List (Option Transform)) :
    stackShape (x :: ts) = x.map (fun t => (Transform.value t).range) :: stackShape ts := rfl

lemma stackShape_eq_cons {L : List (Option Transform)} {y : Option Range}
    {S : List (Option Range)} (h : stackShape L = y :: S) :
    ∃ x rest, L = x :: rest ∧ x.map (fun t => (Transform.value t).range) = y ∧
      stackShape rest = S := by
  cases L with
  | nil => cases h
  | cons x rest =>
    rw [stackShape_cons] at h
    injection h with h1 h2
    exact ⟨x, rest, rfl, h1, h2⟩

lemma isEmitType_iff (pt : PhraseType) :
    isEmitType pt = true ↔
      (pt = .QualifiedName ∨ pt = .RelativeQualifiedName ∨ pt = .FullyQualifiedName) := by
  simp [isEmitType]

lemma namePre_phrase_spec (p : Option PNode) (pt : PhraseType) (o l : Nat) (r : Range)
    (cs : PNodeList) (st : NameState) :
    ∃ x : Option Transform,
      (namePre p (.phrase pt o l r cs) st).1 = { st with tstack := x :: st.tstack } ∧
      (isEmitType pt = true → ∃ tr, x = some tr ∧ (Transform.value tr).range = r) ∧
      (isEmitType pt = false → x = none) := by
  rw [namePre]
  split_ifs with h1 h2 h3 h4
  · exact ⟨some (.fqnT (Reference.create (phraseToReferencesSymbolKind p) "" r)), rfl,
      fun _ => ⟨_, rfl, rfl⟩, fun habs => by simp [isEmitType, h1] at habs⟩
  · exact ⟨some (.rqnT (Reference.create (phraseToReferencesSymbolKind p) "" r)), rfl,
      fun _ => ⟨_, rfl, rfl⟩, fun habs => by simp [isEmitType, h2] at habs⟩
  · exact ⟨some (.qnT (Reference.create (phraseToReferencesSymbolKind p) "" r)), rfl,
      fun _ => ⟨_, rfl, rfl⟩, fun habs => by simp [isEmitType, h3] at habs⟩
  · refine ⟨none, rfl, fun habs => ?_, fun _ => rfl⟩
    rw [isEmitType_iff] at habs
    rcases habs with h | h | h
    · exact absurd h h3
    · exact absurd h h2
    · exact absurd h h1
  · refine ⟨none, rfl, fun habs => ?_, fun _ => rfl⟩
    rw [isEmitType_iff] at habs
    rcases habs with h | h | h
    · exact absurd h h3
    · exact absurd h h2
    · exact absurd h h1

mutual
lemma nameVisit_ok : ∀ (res : NameResolver) (p : Option PNode) (n : PNode) (st : NameState),
    ∃ (st2 : NameState) (new : List Reference),
      nameVisit res p n st = Except.ok st2 ∧
      stackShape st2.tstack = stackShape st.tstack ∧
      st2.refs = st.refs ++ new ∧
      (emitFree n = true → new = []) ∧
      (wfNode n = true → nestOK n = true →
        refsBounded n.range.start n.range.endPos new ∧ refsOrdered new)
  | res, p, .phrase pt o2 l2 r2 cs, st => by
    obtain ⟨x, hpre1, hemit, hnonemit⟩ := namePre_phrase_spec p pt o2 l2 r2 cs st
    have hstep : ∃ (stc : NameState) (newc : List Reference),
        (if (namePre p (.phrase pt o2 l2 r2 cs) st).2 = true then
          nameVisitList res (some (.phrase pt o2 l2 r2 cs)) cs
            (namePre p (.phrase pt o2 l2 r2 cs) st).1
        else Except.ok (namePre p (.phrase pt o2 l2 r2 cs) st).1) =
          Except.ok stc ∧
        stackShape stc.tstack = stackShape (namePre p (.phrase pt o2 l2 r2 cs) st).1.tstack ∧
        stc.refs = (namePre p (.phrase pt o2 l2 r2 cs) st).1.refs ++ newc ∧
        (emitFreeList cs = true → newc = []) ∧
        (∀ lo hi, wfList lo hi cs = true → nestOKList cs = true →
          refsBounded lo hi newc ∧ refsOrdered newc) := by
      by_cases hd : (namePre p (.phrase pt o2 l2 r2 cs) st).2 = true
      · rw [if_pos hd]
        exact nameVisitList_ok res (some (.phrase pt o2 l2 r2 cs)) cs
          (namePre p (.phrase pt o2 l2 r2 cs) st).1
      · rw [if_neg hd]
        refine ⟨_, [], rfl, rfl, (List.append_nil _).symm, fun _ => rfl,
          fun lo hi _ _ => ⟨?_, ?_⟩⟩
        · intro ref h
          exact absurd h (List.not_mem_nil _)
        · exact List.Pairwise.nil
    obtain ⟨stc, newc, hrun, hshape, hrefs, hefree, hbounds⟩ := hstep
    rw [hpre1] at hshape hrefs
    rw [stackShape_cons] at hshape
    obtain ⟨y, rest, hstack, hymap, hrest⟩ := stackShape_eq_cons hshape
    have hvisit : nameVisit res p (.phrase pt o2 l2 r2 cs) st =
        namePost res (.phrase pt o2 l2 r2 cs) stc := by
      rw [nameVisit]
      rw [hrun]
    by_cases hq : pt = .QualifiedName ∨ pt = .RelativeQualifiedName ∨ pt = .FullyQualifiedName
    · obtain ⟨tr0, hx0, htr0r⟩ := hemit (by rw [isEmitType_iff]; exact hq)
      subst hx0
      have hy : ∃ tr, y = some tr ∧ (Transform.value tr).range = r2 := by
        cases y with
        | none => simp at hymap
        | some tr =>
          refine ⟨tr, rfl, ?_⟩
          simp only [Option.map_some', Option.some_inj] at hymap
          rw [hymap]
          exact htr0r
      obtain ⟨tr, hyt, htrr⟩ := hy
      subst hyt
      have hpost : namePost res (.phrase pt o2 l2 r2 cs) stc =
          Except.ok { tstack := rest, refs := stc.refs ++ [tr.value] } := by
        rw [namePost, hstack]
        dsimp only
        rw [if_pos hq]
      refine ⟨_, newc ++ [tr.value], by rw [hvisit, hpost], ?_, ?_, ?_, ?_⟩
      · exact hrest
      · rw [hrefs, List.append_assoc]
      · intro habs
        rw [emitFree] at habs
        have : isEmitType pt = true := by rw [isEmitType_iff]; exact hq
        rw [this] at habs
        simp at habs
      · intro hwf hnest
        have hcs : emitFreeList cs = true := by
          rw [nestOK] at hnest
          rw [if_pos (by rw [isEmitType_iff]; exact hq)] at hnest
          exact hnest
        rw [hefree hcs]
        have hfw : posLE r2.start r2.endPos = true := by
          rw [wfNode] at hwf
          exact (Bool.and_eq_true_iff.mp hwf).1
        constructor
        · intro ref h
          rw [List.nil_append, List.mem_singleton] at h
          subst h
          rw [htrr]
          exact ⟨posLE_refl _, posLE_refl _, hfw⟩
        · rw [List.nil_append]
          exact List.pairwise_singleton _ _
    · have hxn : x = none := hnonemit (by
        rcases Bool.eq_false_or_eq_true (isEmitType pt) with h | h
        · rw [isEmitType_iff] at h
          exact absurd h hq
        · exact h)
      subst hxn
      have hyn : y = none := by
        cases y with
        | none => rfl
        | some tr => simp at hymap
      subst hyn
      by_cases hn : pt = .NamespaceName
      · cases rest with
        | nil =>
          have hpost : namePost res (.phrase pt o2 l2 r2 cs) stc =
              Except.ok { stc with tstack := [] } := by
            rw [namePost, hstack]
            dsimp only
            rw [if_neg hq, if_pos hn]
          refine ⟨{ stc with tstack := [] }, newc, by rw [hvisit, hpost], ?_, ?_, ?_, ?_⟩
          · exact hrest
          · exact hrefs
          · intro habs
            rw [emitFree] at habs
            exact hefree (Bool.and_eq_true_iff.mp habs).2
          · intro hwf hnest
            rw [wfNode] at hwf
            rw [nestOK, if_neg (by
              rcases Bool.eq_false_or_eq_true (isEmitType pt) with h | h
              · rw [isEmitType_iff] at h; exact absurd h hq
              · rw [h]; exact Bool.false_ne_true)] at hnest
            exact hbounds _ _ (Bool.and_eq_true_iff.mp hwf).2 hnest
        | cons pp rest2 =>
          have hpost : namePost res (.phrase pt o2 l2 r2 cs) stc =
              Except.ok { stc with tstack :=
                (pp.map (Transform.pushName res (PNode.phrase pt o2 l2 r2 cs).nodeText)) ::
                  rest2 } := by
            rw [namePost, hstack]
            dsimp only
            rw [if_neg hq, if_pos hn]
          refine ⟨{ stc with tstack :=
              (pp.map (Transform.pushName res (PNode.phrase pt o2 l2 r2 cs).nodeText)) ::
                rest2 }, newc, by rw [hvisit, hpost], ?_, ?_, ?_, ?_⟩
          · rw [stackShape_cons]
            rw [stackShape_cons] at hrest
            have hhd : (pp.map (Transform.pushName res
                (PNode.phrase pt o2 l2 r2 cs).nodeText)).map
                  (fun t => (Transform.value t).range) =
                pp.map (fun t => (Transform.value t).range) := by
              cases pp with
              | none => rfl
              | some tr =>
                simp only [Option.map_some']
                rw [pushName_range]
            rw [hhd]
            exact hrest
          · exact hrefs
          · intro habs
            rw [emitFree] at habs
            exact hefree (Bool.and_eq_true_iff.mp habs).2
          · intro hwf hnest
            rw [wfNode] at hwf
            rw [nestOK, if_neg (by
              rcases Bool.eq_false_or_eq_true (isEmitType pt) with h | h
              · rw [isEmitType_iff] at h; exact absurd h hq
              · rw [h]; exact Bool.false_ne_true)] at hnest
            exact hbounds _ _ (Bool.and_eq_true_iff.mp hwf).2 hnest
      · have hpost : namePost res (.phrase pt o2 l2 r2 cs) stc =
            Except.ok { stc with tstack := rest } := by
          rw [namePost, hstack]
          dsimp only
          rw [if_neg hq, if_neg hn]
        refine ⟨{ stc with tstack := rest }, newc, by rw [hvisit, hpost], ?_, ?_, ?_, ?_⟩
        · exact hrest
        · exact hrefs
        · intro habs
          rw [emitFree] at habs
          exact hefree (Bool.and_eq_true_iff.mp habs).2
        · intro hwf hnest
          rw [wfNode] at hwf
          rw [nestOK, if_neg (by
            rcases Bool.eq_false_or_eq_true (isEmitType pt) with h | h
            · rw [isEmitType_iff] at h; exact absurd h hq
            · rw [h]; exact Bool.false_ne_true)] at hnest
          exact hbounds _ _ (Bool.and_eq_true_iff.mp hwf).2 hnest
  | res, p, .token tt o2 l2 r2 tx, st => by
    refine ⟨st, [], ?_, rfl, (List.append_nil _).symm, fun _ => rfl,
      fun _ _ => ⟨?_, ?_⟩⟩
    · rw [nameVisit]
      rfl
    · intro ref h
      exact absurd h (List.not_mem_nil _)
    · exact List.Pairwise.nil

lemma nameVisitList_ok : ∀ (res : NameResolver) (p : Option PNode) (cs : PNodeList)
    (st : NameState),
    ∃ (st2 : NameState) (new : List Reference),
      nameVisitList res p cs st = Except.ok st2 ∧
      stackShape st2.tstack = stackShape st.tstack ∧
      st2.refs = st.refs ++ new ∧
      (emitFreeList cs = true → new = []) ∧
      (∀ lo hi, wfList lo hi cs = true → nestOKList cs = true →
        refsBounded lo hi new ∧ refsOrdered new)
  | res, p, .nil, st => by
    refine ⟨st, [], rfl, rfl, (List.append_nil _).symm, fun _ => rfl,
      fun lo hi _ _ => ⟨?_, ?_⟩⟩
    · intro ref h
      exact absurd h (List.not_mem_nil _)
    · exact List.Pairwise.nil
  | res, p, .cons hd tl, st => by
    obtain ⟨st1, new1, hrun1, hshape1, hrefs1, hfree1, hb1⟩ := nameVisit_ok res p hd st
    obtain ⟨st2, new2, hrun2, hshape2, hrefs2, hfree2, hb2⟩ := nameVisitList_ok res p tl st1
    refine ⟨st2, new1 ++ new2, ?_, ?_, ?_, ?_, ?_⟩
    · rw [nameVisitList, hrun1]
      exact hrun2
    · rw [hshape2, hshape1]
    · rw [hrefs2, hrefs1, List.append_assoc]
    · intro habs
      rw [emitFreeList] at habs
      rw [hfree1 (Bool.and_eq_true_iff.mp habs).1, hfree2 (Bool.and_eq_true_iff.mp habs).2]
      rfl
    · intro lo hi hwf hnest
      rw [wfList] at hwf
      rw [nestOKList] at hnest
      have hlo := (Bool.and_eq_true_iff.mp (Bool.and_eq_true_iff.mp
        (Bool.and_eq_true_iff.mp hwf).1).1).1
      have hhdhi := (Bool.and_eq_true_iff.mp (Bool.and_eq_true_iff.mp
        (Bool.and_eq_true_iff.mp hwf).1).1).2
      have hwfhd := (Bool.and_eq_true_iff.mp (Bool.and_eq_true_iff.mp hwf).1).2
      have hwftl := (Bool.and_eq_true_iff.mp hwf).2
      have hnesthd := (Bool.and_eq_true_iff.mp hnest).1
      have hnesttl := (Bool.and_eq_true_iff.mp hnest).2
      obtain ⟨hbd1, hord1⟩ := hb1 hwfhd hnesthd
      obtain ⟨hbd2, hord2⟩ := hb2 hd.range.endPos hi hwftl hnesttl
      have hstartend : posLE hd.range.start hd.range.endPos = true := by
        cases hd with
        | phrase pt3 o3 l3 r3 cs3 =>
          rw [wfNode] at hwfhd
          exact (Bool.and_eq_true_iff.mp hwfhd).1
        | token tt3 o3 l3 r3 tx3 =>
          rw [wfNode] at hwfhd
          exact hwfhd
      constructor
      · intro ref h
        rcases List.mem_append.mp h with h1 | h2
        · obtain ⟨ha, hb, hc⟩ := hbd1 ref h1
          exact ⟨posLE_trans hlo ha, posLE_trans hb hhdhi, hc⟩
        · obtain ⟨ha, hb, hc⟩ := hbd2 ref h2
          exact ⟨posLE_trans hlo (posLE_trans hstartend ha), hb, hc⟩
      · rw [refsOrdered, List.pairwise_append]
        refine ⟨hord1, hord2, ?_⟩
        intro a ha b hb
        obtain ⟨_, ha2, _⟩ := hbd1 a ha
        obtain ⟨hb1x, _, _⟩ := hbd2 b hb
        exact posLE_trans ha2 hb1x
end


/-- C5: on every parse tree — malformed ones included — and from every
starting state the reference-collecting name pass finishes with
`Except.ok`: the reducer stack never underflows and no name node ever
reduces against a missing reducer, so a caller observes at worst fewer or
emptier references, never an exception (the flow pass is a total function
by construction, so only this pass models failure at all). -/
theorem nameVisit_no_exception (res : NameResolver) (p : Option PNode) (t : PNode)
    (st : NameState) : ∃ st2, nameVisit res p t st = Except.ok st2 := by
  obtain ⟨st2, _, hrun, _⟩ := nameVisit_ok res p t st
  exact ⟨st2, hrun⟩

/-- C6: on every positionally well-formed document whose reference-emitting
name nodes are not nested inside one another, the reference sequence held
by the resulting `DocumentReferences` is sorted by start position and its
ranges are pairwise non-overlapping: every reference ends no later than
each later one starts, which is what the binary-search lookup needs. -/
theorem documentReferences_sorted (res : NameResolver) (uri : String) (t : PNode)
    (hwf : wfNode t = true) (hnest : nestOK t = true) (st2 : NameState)
    (hrun : nameVisit res none t initNameState = Except.ok st2) :
    List.Pairwise (fun a b => posLE a.range.start b.range.start = true)
      (DocumentReferences.mk uri st2.refs).references ∧
    List.Pairwise (fun a b => posLE a.range.endPos b.range.start = true)
      (DocumentReferences.mk uri st2.refs).references := by
  obtain ⟨st2a, new, hruna, hshape, hrefs, hfree, hb⟩ := nameVisit_ok res none t initNameState
  rw [hrun] at hruna
  have hst : st2 = st2a := Except.ok.inj hruna
  subst hst
  have hrefs2 : st2.refs = new := hrefs
  obtain ⟨hbound, hord⟩ := hb hwf hnest
  simp only [refsBounded] at hbound
  simp only [refsOrdered] at hord
  have hordR : List.Pairwise (fun a b => posLE a.range.endPos b.range.start = true)
      st2.refs := by
    rw [hrefs2]
    exact hord
  have hsort : List.Pairwise (fun a b => posLE a.range.start b.range.start = true)
      st2.refs := by
    refine List.Pairwise.imp_of_mem ?_ hordR
    intro a b ha hb2 hab
    have hwfa : posLE a.range.start a.range.endPos = true := by
      have hm : a ∈ new := by
        rw [hrefs2] at ha
        exact ha
      exact (hbound a hm).2.2
    exact posLE_trans hwfa hab
  exact ⟨hsort, hordR⟩

/-- Witness for C6: the two-name demonstration document is well formed, its
traversal succeeds with the two references, and the resulting
`DocumentReferences` sequence is sorted and non-overlapping. -/
theorem documentReferences_sorted_witness :
    wfNode demoNameTree = true ∧ nestOK demoNameTree = true ∧
    nameVisit demoNameResolver none demoNameTree initNameState =
      Except.ok { tstack := [], refs := demoNameRefs } ∧
    (List.Pairwise (fun a b => posLE a.range.start b.range.start = true)
      (DocumentReferences.mk "file:demo" demoNameRefs).references ∧
     List.Pairwise (fun a b => posLE a.range.endPos b.range.start = true)
      (DocumentReferences.mk "file:demo" demoNameRefs).references) :=
  ⟨by decide, by decide, by rfl,
    documentReferences_sorted demoNameResolver "file:demo" demoNameTree (by decide) (by decide)
      { tstack := [], refs := demoNameRefs } (by rfl)⟩
